import Mathlib

/-!
Verification of the `FixedDepthTreeMap` nested-map container
(src/RecursiveMap.ts).

The container maps fixed-length key sequences to values.  Internally it is a
tree of JavaScript `Map`s: the root is a `Map`, every key component selects a
child `Map` for the first `keyLength - 1` components, and the final component
selects the stored value inside the last map (the "branch").

JavaScript `Map`s are insertion-ordered and compare keys with SameValueZero.
We model a `Map` as an association list (`List (JSVal × β)`) whose operations
preserve insertion order exactly as JS `Map.get/set/delete/has` do, and we
model the dynamic JS value universe with the inductive `JSVal` below, whose
decidable equality coincides with SameValueZero on the represented values
(`obj` values stand for reference-identity objects, identified by an id).
-/

set_option autoImplicit false

/-- Model of JavaScript values used as key components and stored values.
`undefined` is JS `undefined`; `obj id` stands for an object reference compared
by identity.  Decidable equality on `JSVal` models SameValueZero (we model
numbers by `Int`, which has no NaN or signed-zero exceptions). -/
inductive JSVal : Type where
  | undefined : JSVal
  | null : JSVal
  | bool : Bool → JSVal
  | num : Int → JSVal
  | str : String → JSVal
  | obj : Nat → JSVal
deriving DecidableEq, Repr

/-- JavaScript truthiness of a `JSVal` (used by the `if (child)` test in
`getBranch`). -/
def truthy : JSVal → Bool
  | .undefined => false
  | .null => false
  | .bool b => b
  | .num n => n != 0
  | .str s => s != ""
  | .obj _ => true

/-- Indexing `key[i]` in JavaScript: out-of-range access yields `undefined`.
This is how keys shorter than the depth read as "component absent". -/
def keyAt (key : List JSVal) (i : Nat) : JSVal :=
  (key.get? i).getD .undefined

/-- The components `key[i] .. key[i + n - 1]` of a key, reading `undefined`
past the end of the sequence (the segment of the key a loop starting at
index `i` with `n` reads consults). -/
def seg (key : List JSVal) (i : Nat) : Nat → List JSVal
  | 0 => []
  | n + 1 => keyAt key i :: seg key (i + 1) n

/-- The first `d` components a depth-`d` map consults: `key[0] .. key[d-1]`,
reading `undefined` past the end of the sequence. -/
def normKey (d : Nat) (key : List JSVal) : List JSVal :=
  seg key 0 d

/-! Association-list model of a JavaScript `Map`.  `Map.get` returns the
first (and, for lists built by these operations, only) entry with an equal
key; `Map.set` overwrites in place, keeping the entry position, or appends a
new entry at the end; `Map.delete` removes the entry and reports whether one
was removed. -/

section MapModel

variable {β : Type}

/-- JS `Map.get`. -/
def mapGet (m : List (JSVal × β)) (k : JSVal) : Option β :=
  match m with
  | [] => none
  | (k0, v0) :: rest => if k0 = k then some v0 else mapGet rest k

/-- JS `Map.has`. -/
def mapHas (m : List (JSVal × β)) (k : JSVal) : Bool :=
  match m with
  | [] => false
  | (k0, _) :: rest => if k0 = k then true else mapHas rest k

/-- JS `Map.set`: overwrite in place (position preserved) or append. -/
def mapSet (m : List (JSVal × β)) (k : JSVal) (v : β) : List (JSVal × β) :=
  match m with
  | [] => [(k, v)]
  | (k0, v0) :: rest => if k0 = k then (k0, v) :: rest else (k0, v0) :: mapSet rest k v

/-- JS `Map.delete`: remove the entry for `k` and report whether one was
removed. -/
def mapDelete (m : List (JSVal × β)) (k : JSVal) : List (JSVal × β) × Bool :=
  match m with
  | [] => ([], false)
  | (k0, v0) :: rest =>
    if k0 = k then (rest, true)
    else
      let r := mapDelete rest k
      ((k0, v0) :: r.1, r.2)

/-- Keys of the association list are pairwise distinct (true of every list
built from `[]` by `mapSet` and `mapDelete`, as a JS `Map` never holds two
entries with SameValueZero-equal keys). -/
def keysNodup : List (JSVal × β) → Bool
  | [] => true
  | (k0, _) :: rest => (!rest.any fun kv => kv.1 == k0) && keysNodup rest

end MapModel

/-- A value stored in one of the nested maps: either a terminal stored value
(a "leaf", found in branch maps) or a child map (found in intermediate
maps).  The TypeScript code stores both in `Map<unknown, any>`. -/
inductive Entry : Type where
  | leaf : JSVal → Entry
  | node : List (JSVal × Entry) → Entry

/-- Shorthand for the association-list content of one nested map. -/
abbrev NodeMap : Type := List (JSVal × Entry)

/-- JavaScript truthiness of a stored entry: `Map` objects are always
truthy, a stored plain value is as truthy as the value. -/
def truthyEntry : Entry → Bool
  | .leaf v => truthy v
  | .node _ => true

/-- Loop body of `getBranch(key, false)` (read-only branch resolution),
starting at loop index `i` with `rem = keyLength - 1 - i` iterations left.
Each iteration reads `key[i]`, follows a truthy child, and returns
`undefined` (`none`) when the child is absent or falsy.  A stored leaf at an
intermediate level cannot arise from the public operations (only the
`create` path of `getBranch` ever writes below the branch level, and it
writes fresh `Map`s); in that unreachable situation the TypeScript code
would step into a non-`Map` and fail, and we return `none`. -/
def getBranchLoop (parent : NodeMap) (key : List JSVal) (i rem : Nat) : Option NodeMap :=
  match rem with
  | 0 => some parent
  | rem + 1 =>
    match mapGet parent (keyAt key i) with
    | some child =>
      if truthyEntry child then
        match child with
        | .node m => getBranchLoop m key (i + 1) rem
        | .leaf _ => none
      else none
    | none => none

/-- Fusion of `getBranch(key, true)` with the final `branch.set(leafKey, value)`
performed by `set`, written as a pure tree transformation.  `i` is the loop
index and `rem = keyLength - 1 - i`; when the loop ends (`rem = 0`) we are at
the branch and `i = keyLength - 1`, so `keyAt key i` is `getLeafKey(key)`.
A truthy child is followed (and, being mutated in place in JS, is replaced
at its existing position here); an absent or falsy child is overwritten by a
fresh empty map, which `Map.set` likewise places at the existing position or
appends.  A truthy stored leaf at an intermediate level is unreachable from
the public operations (the TypeScript code would step into a non-`Map` and
fail); we leave the map unchanged there. -/
def setLoop (parent : NodeMap) (key : List JSVal) (i rem : Nat) (value : JSVal) : NodeMap :=
  match rem with
  | 0 => mapSet parent (keyAt key i) (.leaf value)
  | rem + 1 =>
    match mapGet parent (keyAt key i) with
    | some child =>
      if truthyEntry child then
        match child with
        | .node m => mapSet parent (keyAt key i) (.node (setLoop m key (i + 1) rem value))
        | .leaf _ => parent
      else mapSet parent (keyAt key i) (.node (setLoop [] key (i + 1) rem value))
    | none => mapSet parent (keyAt key i) (.node (setLoop [] key (i + 1) rem value))

/-- Fusion of `getBranch(key, false)` with the final `branch.delete(leafKey)`
performed by `delete`, written as a pure tree transformation returning the
updated tree and the deletion result.  Mirrors `getBranchLoop`; where the
JS code mutates the resolved branch in place, we rebuild the spine (the
followed child keeps its position via `mapSet`). -/
def deleteLoop (parent : NodeMap) (key : List JSVal) (i rem : Nat) : NodeMap × Bool :=
  match rem with
  | 0 => mapDelete parent (keyAt key i)
  | rem + 1 =>
    match mapGet parent (keyAt key i) with
    | some child =>
      if truthyEntry child then
        match child with
        | .node m =>
          let r := deleteLoop m key (i + 1) rem
          (mapSet parent (keyAt key i) (.node r.1), r.2)
        | .leaf _ => (parent, false)
      else (parent, false)
    | none => (parent, false)

/-- Body of the `depthFirstIterate` generator, as the list of the pairs it
yields.  `maxKeyLength` is constant through the JS recursion while
`parentKeyPath` grows by one component per level, so we recurse on the fuel
`rem = maxKeyLength - parentKeyPath.length`: `rem = 1` is the JS guard
`parentKeyPath.length + 1 === maxKeyLength` (yield this map's entries as
leaves), larger `rem` recurses into each child in insertion order.  `rem = 0`
(the key path already as long as `maxKeyLength`) never occurs in calls made
by the class; the JS code would recurse ever deeper there, and here no pair
is yielded.  A stored leaf met where a child map is expected is likewise
unreachable (the JS `for .. of` would fail on a non-iterable) and yields
nothing. -/
def dfiGo (parentKeyPath : List JSVal) (rem : Nat) (parent : NodeMap) :
    List (List JSVal × Entry) :=
  match rem with
  | 0 => []
  | 1 => parent.map fun kv => (parentKeyPath ++ [kv.1], kv.2)
  | rem + 2 =>
    parent.flatMap fun kv =>
      match kv.2 with
      | .node child => dfiGo (parentKeyPath ++ [kv.1]) (rem + 1) child
      | .leaf _ => []

/-- The `depthFirstIterate` generator: it checks `maxKeyLength === 0` and
throws, else yields the pairs of `dfiGo`.  The JS guard runs at every
recursive generator invocation, but `maxKeyLength` never changes during the
recursion, so checking it once at the entry point is equivalent. -/
def depthFirstIterate (parentKeyPath : List JSVal) (maxKeyLength : Nat)
    (parent : NodeMap) : Except String (List (List JSVal × Entry)) :=
  if maxKeyLength = 0 then .error "maxKeyLength must be > 0 (was 0)"
  else .ok (dfiGo parentKeyPath (maxKeyLength - parentKeyPath.length) parent)

/-- Specification-level count of stored leaves in a tree whose leaves sit
`d - 1` levels below (so `d = 1` means this map itself is a branch holding
leaves).  Used to state what `size` computes: the sum over branch nodes of
their leaf-entry counts, never counting intermediate nodes. -/
def leafCount : Nat → NodeMap → Nat
  | 0, _ => 0
  | 1, m => m.length
  | d + 2, m =>
    (m.map fun kv =>
      match kv.2 with
      | .node child => leafCount (d + 1) child
      | .leaf _ => 0).sum

/-- Well-formedness of a tree serving a map of depth `d`: every level has
pairwise-distinct keys, levels above the branches hold only child maps, and
branches hold only leaves.  Every tree reachable from the empty root through
the public operations satisfies this. -/
def WFNode : Nat → NodeMap → Bool
  | 0, _ => false
  | 1, m =>
    keysNodup m && m.all fun kv =>
      match kv.2 with
      | .leaf _ => true
      | .node _ => false
  | d + 2, m =>
    keysNodup m && m.all fun kv =>
      match kv.2 with
      | .leaf _ => false
      | .node child => WFNode (d + 1) child

/-- State of a `FixedDepthTreeMap`: the fixed key length and the root map.
A validly constructed instance has `1 ≤ keyLength` (see
`FixedDepthTreeMap.create`). -/
structure FixedDepthTreeMap : Type where
  keyLength : Nat
  root : NodeMap

namespace FixedDepthTreeMap

/-- The constructor: `new FixedDepthTreeMap(keyLength)` throws when
`keyLength < 1`, else starts with an empty root.  The argument is a JS
number, modelled as an `Int`. -/
def create (keyLength : Int) : Except String FixedDepthTreeMap :=
  if keyLength < 1 then .error "Key length cannot be < 1"
  else .ok { keyLength := keyLength.toNat, root := [] }

/-- A map of depth `d` with an empty root, the state `create` produces. -/
def empty (d : Nat) : FixedDepthTreeMap :=
  { keyLength := d, root := [] }

/-- The `clear()` method: the root map is emptied in place. -/
def clear (m : FixedDepthTreeMap) : FixedDepthTreeMap :=
  { m with root := [] }

/-- The `get(key)` method: resolve the branch without creating
(`branch && branch.get(this.getLeafKey(key))`), returning `undefined` when
the branch is absent or the leaf key is not present. -/
def get (m : FixedDepthTreeMap) (key : List JSVal) : JSVal :=
  match getBranchLoop m.root key 0 (m.keyLength - 1) with
  | none => .undefined
  | some branch =>
    match mapGet branch (keyAt key (m.keyLength - 1)) with
    | some (.leaf v) => v
    | some (.node _) => .undefined
    | none => .undefined

/-- The `has(key)` method: `Boolean(branch && branch.has(leafKey))`. -/
def has (m : FixedDepthTreeMap) (key : List JSVal) : Bool :=
  match getBranchLoop m.root key 0 (m.keyLength - 1) with
  | none => false
  | some branch => mapHas branch (keyAt key (m.keyLength - 1))

/-- The `set(key, value)` method (it returns `this`; we return the updated
state). -/
def set (m : FixedDepthTreeMap) (key : List JSVal) (value : JSVal) :
    FixedDepthTreeMap :=
  { m with root := setLoop m.root key 0 (m.keyLength - 1) value }

/-- The `delete(key)` method: resolve the branch without creating; absent
branch means `false`, otherwise remove the leaf entry and report whether one
was removed.  Returns the updated state together with the boolean. -/
def delete (m : FixedDepthTreeMap) (key : List JSVal) :
    FixedDepthTreeMap × Bool :=
  let r := deleteLoop m.root key 0 (m.keyLength - 1)
  ({ m with root := r.1 }, r.2)

/-- The contribution of one pair yielded by the traversal inside `size`:
`branch.size` of the yielded branch map.  A yielded leaf is unreachable
there (the JS code would read `.size` of a non-`Map`). -/
def branchSize (e : Entry) : Nat :=
  match e with
  | .node branch => branch.length
  | .leaf _ => 0

/-- The `size` getter exactly as written: depth 1 returns the root's own
entry count; otherwise traverse to the parents of branches with
`depthFirstIterate([], keyLength - 1, root)` and sum each yielded branch's
entry count.  The traversal's thrown error propagates. -/
def sizeE (m : FixedDepthTreeMap) : Except String Nat :=
  if m.keyLength = 1 then .ok m.root.length
  else
    match depthFirstIterate [] (m.keyLength - 1) m.root with
    | .error e => .error e
    | .ok l => .ok (l.map fun kv => branchSize kv.2).sum

/-- The value `size` computes whenever it does not throw (for every validly
constructed map, i.e. `1 ≤ keyLength`, it never throws: see
`FixedDepthTreeMap.sizeE_eq_ok`). -/
def size (m : FixedDepthTreeMap) : Nat :=
  if m.keyLength = 1 then m.root.length
  else (dfiGo [] (m.keyLength - 1) m.root).map (fun kv => branchSize kv.2) |>.sum

/-- The `entries()` method: `depthFirstIterate([], keyLength, root)`. -/
def entriesE (m : FixedDepthTreeMap) : Except String (List (List JSVal × Entry)) :=
  depthFirstIterate [] m.keyLength m.root

/-- The pair list `entries()` yields whenever it does not throw (for every
validly constructed map it never throws). -/
def entriesList (m : FixedDepthTreeMap) : List (List JSVal × Entry) :=
  dfiGo [] m.keyLength m.root

/-- Well-formedness of a map state: positive depth and a well-formed tree.
Every state reachable from construction through the public operations
satisfies it (see the preservation lemmas below). -/
def wf (m : FixedDepthTreeMap) : Bool :=
  decide (1 ≤ m.keyLength) && WFNode m.keyLength m.root

end FixedDepthTreeMap

/-! Lemmas about the association-list model of one JS `Map`. -/

section MapLemmas

variable {β : Type}

theorem mapHas_eq_isSome_mapGet (m : List (JSVal × β)) (k : JSVal) :
    mapHas m k = (mapGet m k).isSome := by
  induction m with
  | nil => rfl
  | cons kv rest ih =>
    obtain ⟨k0, v0⟩ := kv
    by_cases h : k0 = k <;> simp [mapGet, mapHas, h, ih]

theorem mapGet_mapSet_same (m : List (JSVal × β)) (k : JSVal) (v : β) :
    mapGet (mapSet m k v) k = some v := by
  induction m with
  | nil => simp [mapGet, mapSet]
  | cons kv rest ih =>
    obtain ⟨k0, v0⟩ := kv
    by_cases h : k0 = k <;> simp [mapGet, mapSet, h, ih]

theorem mapGet_mapSet_other (m : List (JSVal × β)) (k x : JSVal) (v : β)
    (hx : x ≠ k) : mapGet (mapSet m k v) x = mapGet m x := by
  have hkx : ¬ k = x := fun h => hx h.symm
  induction m with
  | nil => simp [mapGet, mapSet, hkx]
  | cons kv rest ih =>
    obtain ⟨k0, v0⟩ := kv
    by_cases h : k0 = k
    · subst h
      simp [mapGet, mapSet, hkx]
    · simp [mapGet, mapSet, h, ih]

theorem mapSet_length (m : List (JSVal × β)) (k : JSVal) (v : β) :
    (mapSet m k v).length = m.length + (if mapHas m k then 0 else 1) := by
  induction m with
  | nil => simp [mapSet, mapHas]
  | cons kv rest ih =>
    obtain ⟨k0, v0⟩ := kv
    by_cases h : k0 = k
    · simp [mapSet, mapHas, h, ih]
    · simp [mapSet, mapHas, h, ih]
      omega

theorem mapSet_of_mapGet_self (m : List (JSVal × β)) (k : JSVal) (v : β)
    (h : mapGet m k = some v) : mapSet m k v = m := by
  induction m with
  | nil => simp [mapGet] at h
  | cons kv rest ih =>
    obtain ⟨k0, v0⟩ := kv
    by_cases h0 : k0 = k
    · simp [mapGet, h0] at h
      simp [mapSet, h0, h]
    · simp [mapGet, h0] at h
      simp [mapSet, h0, ih h]

theorem mapSet_of_not_has (m : List (JSVal × β)) (k : JSVal) (v : β)
    (h : mapHas m k = false) : mapSet m k v = m ++ [(k, v)] := by
  induction m with
  | nil => simp [mapSet]
  | cons kv rest ih =>
    obtain ⟨k0, v0⟩ := kv
    by_cases h0 : k0 = k
    · simp [mapHas, h0] at h
    · simp [mapHas, h0] at h
      simp [mapSet, h0, ih h]

theorem mapDelete_snd (m : List (JSVal × β)) (k : JSVal) :
    (mapDelete m k).2 = mapHas m k := by
  induction m with
  | nil => rfl
  | cons kv rest ih =>
    obtain ⟨k0, v0⟩ := kv
    by_cases h : k0 = k <;> simp [mapDelete, mapHas, h, ih]

theorem mapDelete_of_not_has (m : List (JSVal × β)) (k : JSVal)
    (h : mapHas m k = false) : mapDelete m k = (m, false) := by
  induction m with
  | nil => rfl
  | cons kv rest ih =>
    obtain ⟨k0, v0⟩ := kv
    by_cases h0 : k0 = k
    · simp [mapHas, h0] at h
    · simp [mapHas, h0] at h
      simp [mapDelete, h0, ih h]

theorem mapDelete_length (m : List (JSVal × β)) (k : JSVal)
    (h : mapHas m k = true) : (mapDelete m k).1.length + 1 = m.length := by
  induction m with
  | nil => simp [mapHas] at h
  | cons kv rest ih =>
    obtain ⟨k0, v0⟩ := kv
    by_cases h0 : k0 = k
    · simp [mapDelete, h0]
    · simp [mapHas, h0] at h
      simp [mapDelete, h0, ih h]

theorem mapGet_mapDelete_other (m : List (JSVal × β)) (k x : JSVal)
    (hx : x ≠ k) : mapGet (mapDelete m k).1 x = mapGet m x := by
  have hkx : ¬ k = x := fun h => hx h.symm
  induction m with
  | nil => rfl
  | cons kv rest ih =>
    obtain ⟨k0, v0⟩ := kv
    by_cases h : k0 = k
    · subst h
      simp [mapGet, mapDelete, hkx]
    · simp [mapGet, mapDelete, h, ih]

theorem mem_of_mapGet_eq_some (m : List (JSVal × β)) (k : JSVal) (e : β)
    (h : mapGet m k = some e) : (k, e) ∈ m := by
  induction m with
  | nil => simp [mapGet] at h
  | cons kv rest ih =>
    obtain ⟨k0, v0⟩ := kv
    by_cases h0 : k0 = k
    · subst h0
      simp [mapGet] at h
      simp [h]
    · simp [mapGet, h0] at h
      simp [ih h]

theorem mapGet_eq_none_of_keys (m : List (JSVal × β)) (k : JSVal)
    (h : ∀ kv ∈ m, kv.1 ≠ k) : mapGet m k = none := by
  induction m with
  | nil => rfl
  | cons kv rest ih =>
    obtain ⟨k0, v0⟩ := kv
    have hk0 : k0 ≠ k := h (k0, v0) (by simp)
    simp only [mapGet, hk0, if_false]
    exact ih fun kv hkv => h kv (by simp [hkv])

theorem keysNodup_iff (m : List (JSVal × β)) :
    keysNodup m = true ↔ (m.map Prod.fst).Nodup := by
  induction m with
  | nil => simp [keysNodup]
  | cons kv rest ih =>
    obtain ⟨k0, v0⟩ := kv
    simp only [keysNodup, Bool.and_eq_true, Bool.not_eq_true', List.any_eq_false,
      List.map_cons, List.nodup_cons, ih, List.mem_map, beq_iff_eq]
    constructor
    · rintro ⟨h1, h2⟩
      refine ⟨?_, h2⟩
      rintro ⟨kv, hkv, hfst⟩
      exact h1 kv hkv hfst
    · rintro ⟨h1, h2⟩
      exact ⟨fun kv hkv hfst => h1 ⟨kv, hkv, hfst⟩, h2⟩

theorem mapGet_eq_some_of_mem (m : List (JSVal × β)) (k : JSVal) (e : β)
    (hnd : keysNodup m = true) (h : (k, e) ∈ m) : mapGet m k = some e := by
  induction m with
  | nil => simp at h
  | cons kv rest ih =>
    obtain ⟨k0, v0⟩ := kv
    simp only [keysNodup, Bool.and_eq_true, Bool.not_eq_true', List.any_eq_false,
      beq_iff_eq] at hnd
    rcases List.mem_cons.mp h with h | h
    · simp only [Prod.mk.injEq] at h
      obtain ⟨h1, h2⟩ := h
      subst h1
      subst h2
      simp [mapGet]
    · have hk0 : k0 ≠ k := fun he => hnd.1 (k, e) h (by simp [he])
      simp only [mapGet, hk0, if_false]
      exact ih hnd.2 h

theorem map_replace_of_keys (m : List (JSVal × β)) (k : JSVal) (v : β)
    (h : ∀ kv ∈ m, kv.1 ≠ k) :
    m.map (fun kv => if kv.1 = k then (kv.1, v) else kv) = m := by
  induction m with
  | nil => rfl
  | cons kv rest ih =>
    have hk : kv.1 ≠ k := h kv (by simp)
    simp only [List.map_cons, if_neg hk]
    rw [ih fun kv hkv => h kv (by simp [hkv])]

theorem mapSet_eq_replace (m : List (JSVal × β)) (k : JSVal) (v : β)
    (hnd : keysNodup m = true) (hk : mapHas m k = true) :
    mapSet m k v = m.map (fun kv => if kv.1 = k then (kv.1, v) else kv) := by
  induction m with
  | nil => simp [mapHas] at hk
  | cons kv rest ih =>
    obtain ⟨k0, v0⟩ := kv
    simp only [keysNodup, Bool.and_eq_true, Bool.not_eq_true', List.any_eq_false,
      beq_iff_eq] at hnd
    by_cases h0 : k0 = k
    · subst h0
      have hrest : rest.map (fun kv => if kv.1 = k0 then (kv.1, v) else kv) = rest :=
        map_replace_of_keys rest k0 v hnd.1
      simp [mapSet, hrest]
    · simp only [mapHas, h0, if_false] at hk
      have hrec := ih hnd.2 hk
      simp [mapSet, h0, hrec]

theorem mem_mapSet (m : List (JSVal × β)) (k : JSVal) (v : β) (kv : JSVal × β)
    (h : kv ∈ mapSet m k v) : kv ∈ m ∨ kv = (k, v) := by
  induction m with
  | nil =>
    simp only [mapSet, List.mem_singleton] at h
    exact Or.inr h
  | cons kv0 rest ih =>
    obtain ⟨k0, v0⟩ := kv0
    by_cases h0 : k0 = k
    · subst h0
      simp only [mapSet, if_pos rfl, List.mem_cons, reduceIte] at h
      rcases h with h | h
      · exact Or.inr h
      · exact Or.inl (List.mem_cons_of_mem _ h)
    · simp only [mapSet, if_neg h0, List.mem_cons] at h
      rcases h with h | h
      · exact Or.inl (h ▸ List.mem_cons_self _ _)
      · rcases ih h with h | h
        · exact Or.inl (List.mem_cons_of_mem _ h)
        · exact Or.inr h

theorem keysNodup_mapSet (m : List (JSVal × β)) (k : JSVal) (v : β)
    (hnd : keysNodup m = true) : keysNodup (mapSet m k v) = true := by
  induction m with
  | nil => simp [mapSet, keysNodup]
  | cons kv rest ih =>
    obtain ⟨k0, v0⟩ := kv
    simp only [keysNodup, Bool.and_eq_true, Bool.not_eq_true', List.any_eq_false,
      beq_iff_eq] at hnd
    by_cases h0 : k0 = k
    · subst h0
      simp only [mapSet, if_pos rfl, keysNodup, Bool.and_eq_true,
        Bool.not_eq_true', List.any_eq_false, beq_iff_eq]
      exact ⟨fun kv hkv => hnd.1 kv hkv, hnd.2⟩
    · simp only [mapSet, if_neg h0, keysNodup, Bool.and_eq_true,
        Bool.not_eq_true', List.any_eq_false, beq_iff_eq]
      refine ⟨fun kv hkv => ?_, ih hnd.2⟩
      rcases mem_mapSet rest k v kv hkv with h | h
      · exact hnd.1 kv h
      · rw [h]
        exact fun he => h0 he.symm

theorem mem_mapDelete (m : List (JSVal × β)) (k : JSVal) (kv : JSVal × β)
    (h : kv ∈ (mapDelete m k).1) : kv ∈ m := by
  induction m with
  | nil =>
    simp only [mapDelete] at h
    exact absurd h (List.not_mem_nil kv)
  | cons kv0 rest ih =>
    obtain ⟨k0, v0⟩ := kv0
    by_cases h0 : k0 = k
    · subst h0
      simp only [mapDelete, if_pos rfl] at h
      exact List.mem_cons_of_mem _ h
    · simp only [mapDelete, if_neg h0, List.mem_cons] at h
      rcases h with h | h
      · exact h ▸ List.mem_cons_self _ _
      · exact List.mem_cons_of_mem _ (ih h)

theorem keysNodup_mapDelete (m : List (JSVal × β)) (k : JSVal)
    (hnd : keysNodup m = true) : keysNodup (mapDelete m k).1 = true := by
  induction m with
  | nil => simp [mapDelete, keysNodup]
  | cons kv rest ih =>
    obtain ⟨k0, v0⟩ := kv
    simp only [keysNodup, Bool.and_eq_true, Bool.not_eq_true', List.any_eq_false,
      beq_iff_eq] at hnd
    by_cases h0 : k0 = k
    · subst h0
      simp only [mapDelete, if_pos rfl]
      exact hnd.2
    · simp only [mapDelete, if_neg h0, keysNodup, Bool.and_eq_true,
        Bool.not_eq_true', List.any_eq_false, beq_iff_eq]
      exact ⟨fun kv hkv => hnd.1 kv (mem_mapDelete rest k kv hkv), ih hnd.2⟩

theorem mapGet_mapDelete_self (m : List (JSVal × β)) (k : JSVal)
    (hnd : keysNodup m = true) : mapGet (mapDelete m k).1 k = none := by
  induction m with
  | nil => rfl
  | cons kv rest ih =>
    obtain ⟨k0, v0⟩ := kv
    simp only [keysNodup, Bool.and_eq_true, Bool.not_eq_true', List.any_eq_false,
      beq_iff_eq] at hnd
    by_cases h0 : k0 = k
    · subst h0
      simp only [mapDelete, if_pos rfl]
      exact mapGet_eq_none_of_keys rest k0 hnd.1
    · simp only [mapDelete, if_neg h0, mapGet, if_neg h0]
      exact ih hnd.2

end MapLemmas

/-! Lemmas about key indexing and key segments. -/

theorem keyAt_nil (i : Nat) : keyAt [] i = .undefined := by
  cases i <;> rfl

theorem keyAt_cons_zero (a : JSVal) (l : List JSVal) : keyAt (a :: l) 0 = a := rfl

theorem keyAt_cons_succ (a : JSVal) (l : List JSVal) (i : Nat) :
    keyAt (a :: l) (i + 1) = keyAt l i := rfl

theorem seg_length (key : List JSVal) (i n : Nat) : (seg key i n).length = n := by
  induction n generalizing i with
  | zero => rfl
  | succ n ih => simp [seg, ih]

theorem keyAt_seg (key : List JSVal) (i n j : Nat) (h : j < n) :
    keyAt (seg key i n) j = keyAt key (i + j) := by
  induction n generalizing i j with
  | zero => omega
  | succ n ih =>
    cases j with
    | zero => simp [seg, keyAt_cons_zero]
    | succ j =>
      rw [seg, keyAt_cons_succ, ih (i + 1) j (by omega)]
      congr 1
      omega

theorem normKey_length (d : Nat) (key : List JSVal) : (normKey d key).length = d :=
  seg_length key 0 d

theorem keyAt_normKey (d : Nat) (key : List JSVal) (j : Nat) (h : j < d) :
    keyAt (normKey d key) j = keyAt key j := by
  rw [normKey, keyAt_seg key 0 d j h, Nat.zero_add]

theorem keyAt_of_length_le (key : List JSVal) (i : Nat) (h : key.length ≤ i) :
    keyAt key i = .undefined := by
  simp [keyAt, List.getElem?_eq_none h]

theorem keyAt_lt (key : List JSVal) (i : Nat) (h : i < key.length) :
    keyAt key i = key[i] := by
  simp [keyAt, List.getElem?_eq_getElem h]

theorem seg_eq_take (key : List JSVal) (i n : Nat) (h : i + n ≤ key.length) :
    seg key i n = (key.drop i).take n := by
  induction n generalizing i with
  | zero => simp [seg]
  | succ n ih =>
    have hi : i < key.length := by omega
    rw [seg, ih (i + 1) (by omega), List.drop_eq_getElem_cons hi,
      List.take_succ_cons, keyAt_lt key i hi]

theorem normKey_of_le_length (d : Nat) (key : List JSVal) (h : d ≤ key.length) :
    normKey d key = key.take d := by
  rw [normKey, seg_eq_take key 0 d (by omega), List.drop_zero]

theorem normKey_self (d : Nat) (key : List JSVal) (h : key.length = d) :
    normKey d key = key := by
  rw [normKey_of_le_length d key (by omega), ← h, List.take_length]

theorem seg_of_length_le (key : List JSVal) (i n : Nat) (h : key.length ≤ i) :
    seg key i n = List.replicate n .undefined := by
  induction n generalizing i with
  | zero => rfl
  | succ n ih =>
    rw [seg, keyAt_of_length_le key i h, ih (i + 1) (by omega)]
    rfl

/-- Reference path lookup through the nested maps: follow child maps for all
but the last component and read the last component in the resolved map.
The bridge lemma `getBranch_read_eq_chGet` shows that the loop-based branch
resolution of the code followed by a read of the leaf key computes exactly
this. -/
def chGet (parent : NodeMap) : List JSVal → Option Entry
  | [] => none
  | k :: ks =>
    match ks with
    | [] => mapGet parent k
    | _ :: _ =>
      match mapGet parent k with
      | some (.node c) => chGet c ks
      | _ => none

theorem chGet_nil (s : List JSVal) : chGet [] s = none := by
  cases s with
  | nil => rfl
  | cons k ks => cases ks <;> rfl

/-- Resolving the branch with the `getBranch` loop and then reading the leaf
component in it is the reference path lookup along the consulted key
segment. -/
theorem getBranch_read_eq_chGet (rem : Nat) (key : List JSVal) :
    ∀ (i : Nat) (parent : NodeMap),
    (match getBranchLoop parent key i rem with
     | none => none
     | some b => mapGet b (keyAt key (i + rem))) = chGet parent (seg key i (rem + 1)) := by
  induction rem with
  | zero =>
    intro i parent
    simp [getBranchLoop, seg, chGet]
  | succ rem ih =>
    intro i parent
    have hidx : i + (rem + 1) = (i + 1) + rem := by omega
    cases hget : mapGet parent (keyAt key i) with
    | none => simp [getBranchLoop, hget, seg, chGet]
    | some child =>
      cases child with
      | node c =>
        simp only [getBranchLoop, hget, truthyEntry, if_true, seg, chGet, hidx]
        exact ih (i + 1) c
      | leaf v =>
        cases htr : truthy v <;>
          simp [getBranchLoop, hget, truthyEntry, htr, seg, chGet]

theorem normKey_of_length_le (d : Nat) (key : List JSVal) (h : key.length ≤ d) :
    normKey d key = key ++ List.replicate (d - key.length) .undefined := by
  induction key generalizing d with
  | nil =>
    simp [normKey]
    exact seg_of_length_le [] 0 d (by simp)
  | cons a l ih =>
    cases d with
    | zero => simp at h
    | succ d =>
      simp only [List.length_cons] at h
      have hd : normKey d l = l ++ List.replicate (d - l.length) .undefined :=
        ih d (by omega)
      simp only [normKey, seg] at hd ⊢
      rw [keyAt_cons_zero]
      refine congrArg _ ?_
      have hseg : seg (a :: l) 1 d = seg l 0 d := by
        have hgen : ∀ n i, seg (a :: l) (i + 1) n = seg l i n := by
          intro n
          induction n with
          | zero => intro i; rfl
          | succ n ihn =>
            intro i
            rw [seg, seg, keyAt_cons_succ, ihn (i + 1)]
        exact hgen d 0
      rw [hseg, hd]
      simp [List.length_cons, Nat.succ_sub_succ]

/-! Well-formedness accessors and preservation. -/

theorem WFNode_one_iff (m : NodeMap) :
    WFNode 1 m = true ↔
      keysNodup m = true ∧ ∀ kv ∈ m, ∃ v, kv.2 = Entry.leaf v := by
  simp only [WFNode, Bool.and_eq_true, List.all_eq_true]
  refine and_congr Iff.rfl (forall_congr' fun kv => forall_congr' fun _ => ?_)
  cases h : kv.2 <;> simp [h]

theorem WFNode_succ_iff (d : Nat) (m : NodeMap) :
    WFNode (d + 2) m = true ↔
      keysNodup m = true ∧
        ∀ kv ∈ m, ∃ c, kv.2 = Entry.node c ∧ WFNode (d + 1) c = true := by
  simp only [WFNode, Bool.and_eq_true, List.all_eq_true]
  refine and_congr Iff.rfl (forall_congr' fun kv => forall_congr' fun _ => ?_)
  cases h : kv.2 <;> simp [h]

theorem WFNode_nil (d : Nat) (h : 1 ≤ d) : WFNode d [] = true := by
  cases d with
  | zero => omega
  | succ d =>
    cases d with
    | zero => rfl
    | succ d => rfl

theorem WFNode_keysNodup (d : Nat) (m : NodeMap) (hd : 1 ≤ d)
    (h : WFNode d m = true) : keysNodup m = true := by
  cases d with
  | zero => omega
  | succ d =>
    cases d with
    | zero => exact ((WFNode_one_iff m).mp h).1
    | succ d => exact ((WFNode_succ_iff d m).mp h).1

theorem WFNode_mapGet_node (d : Nat) (m : NodeMap) (k : JSVal) (e : Entry)
    (hwf : WFNode (d + 2) m = true) (hget : mapGet m k = some e) :
    ∃ c, e = Entry.node c ∧ WFNode (d + 1) c = true := by
  obtain ⟨c, hc, hcwf⟩ :=
    ((WFNode_succ_iff d m).mp hwf).2 (k, e) (mem_of_mapGet_eq_some m k e hget)
  exact ⟨c, hc, hcwf⟩

theorem WFNode_mapGet_leaf (m : NodeMap) (k : JSVal) (e : Entry)
    (hwf : WFNode 1 m = true) (hget : mapGet m k = some e) :
    ∃ v, e = Entry.leaf v := by
  exact ((WFNode_one_iff m).mp hwf).2 (k, e) (mem_of_mapGet_eq_some m k e hget)

/-! Characterization of the read operations by the reference path lookup. -/

theorem has_eq_isSome_chGet (m : FixedDepthTreeMap) (key : List JSVal)
    (hd : 1 ≤ m.keyLength) :
    m.has key = (chGet m.root (normKey m.keyLength key)).isSome := by
  have hb := getBranch_read_eq_chGet (m.keyLength - 1) key 0 m.root
  rw [Nat.zero_add, Nat.sub_add_cancel hd] at hb
  rw [FixedDepthTreeMap.has, normKey, ← hb]
  cases getBranchLoop m.root key 0 (m.keyLength - 1) with
  | none => rfl
  | some b => exact mapHas_eq_isSome_mapGet b (keyAt key (m.keyLength - 1))

theorem get_eq_chGet (m : FixedDepthTreeMap) (key : List JSVal)
    (hd : 1 ≤ m.keyLength) :
    m.get key =
      (match chGet m.root (normKey m.keyLength key) with
       | some (.leaf v) => v
       | _ => .undefined) := by
  have hb := getBranch_read_eq_chGet (m.keyLength - 1) key 0 m.root
  rw [Nat.zero_add, Nat.sub_add_cancel hd] at hb
  rw [FixedDepthTreeMap.get, normKey, ← hb]
  cases getBranchLoop m.root key 0 (m.keyLength - 1) with
  | none => rfl
  | some b =>
    dsimp only
    cases mapGet b (keyAt key (m.keyLength - 1)) with
    | none => rfl
    | some e => cases e <;> rfl

/-- Unfolding of `seg` at a positive count. -/
theorem seg_succ (key : List JSVal) (i n : Nat) :
    seg key i (n + 1) = keyAt key i :: seg key (i + 1) n := rfl

/-- Effect of `set`'s tree transformation on the reference path lookup: the
consulted key segment now maps to the stored leaf; every other path of the
same (full) length resolves as before. -/
theorem chGet_setLoop (rem : Nat) (key : List JSVal) (v : JSVal) :
    ∀ (i : Nat) (parent : NodeMap) (s : List JSVal),
      WFNode (rem + 1) parent = true → s.length = rem + 1 →
      chGet (setLoop parent key i rem v) s =
        if s = seg key i (rem + 1) then some (.leaf v) else chGet parent s := by
  induction rem with
  | zero =>
    intro i parent s hwf hlen
    obtain ⟨x, rfl⟩ : ∃ x, s = [x] := by
      cases s with
      | nil => simp at hlen
      | cons x t =>
        cases t with
        | nil => exact ⟨x, rfl⟩
        | cons y t => simp at hlen
    by_cases hx : x = keyAt key i
    · subst hx
      simp [setLoop, chGet, seg, mapGet_mapSet_same]
    · simp [setLoop, chGet, seg,
        mapGet_mapSet_other parent (keyAt key i) x (.leaf v) hx, hx]
  | succ rem ih =>
    intro i parent s hwf hlen
    obtain ⟨x, y, t, rfl⟩ : ∃ x y t, s = x :: y :: t := by
      cases s with
      | nil => simp at hlen
      | cons x t =>
        cases t with
        | nil => simp at hlen
        | cons y t => exact ⟨x, y, t, rfl⟩
    simp only [List.length_cons] at hlen
    have hlen2 : (y :: t).length = rem + 1 := by
      simp only [List.length_cons]
      omega
    cases hget : mapGet parent (keyAt key i) with
    | some child =>
      obtain ⟨c, rfl, hcwf⟩ := WFNode_mapGet_node rem parent (keyAt key i) child hwf hget
      by_cases hx : x = keyAt key i
      · subst hx
        have hstep : chGet (setLoop parent key i (rem + 1) v) (keyAt key i :: y :: t)
            = chGet (setLoop c key (i + 1) rem v) (y :: t) := by
          simp [setLoop, hget, truthyEntry, chGet, mapGet_mapSet_same]
        rw [hstep, ih (i + 1) c (y :: t) hcwf hlen2, seg_succ key i (rem + 1)]
        by_cases hyt : y :: t = seg key (i + 1) (rem + 1)
        · simp [hyt]
        · have hne : ¬ (keyAt key i :: y :: t
              = keyAt key i :: seg key (i + 1) (rem + 1)) := by
            simpa using hyt
          rw [if_neg hyt, if_neg hne]
          simp [chGet, hget]
      · rw [seg_succ key i (rem + 1)]
        have hne : ¬ (x :: y :: t = keyAt key i :: seg key (i + 1) (rem + 1)) := by
          intro h
          injection h with h1 h2
          exact hx h1
        rw [if_neg hne]
        simp only [setLoop, hget, truthyEntry, if_true]
        simp [chGet, mapGet_mapSet_other parent (keyAt key i) x _ hx]
    | none =>
      by_cases hx : x = keyAt key i
      · subst hx
        have hstep : chGet (setLoop parent key i (rem + 1) v) (keyAt key i :: y :: t)
            = chGet (setLoop [] key (i + 1) rem v) (y :: t) := by
          simp [setLoop, hget, truthyEntry, chGet, mapGet_mapSet_same]
        rw [hstep, ih (i + 1) [] (y :: t) (WFNode_nil (rem + 1) (by omega)) hlen2,
          seg_succ key i (rem + 1)]
        by_cases hyt : y :: t = seg key (i + 1) (rem + 1)
        · simp [hyt]
        · have hne : ¬ (keyAt key i :: y :: t
              = keyAt key i :: seg key (i + 1) (rem + 1)) := by
            simpa using hyt
          rw [if_neg hyt, if_neg hne, chGet_nil]
          simp [chGet, hget]
      · rw [seg_succ key i (rem + 1)]
        have hne : ¬ (x :: y :: t = keyAt key i :: seg key (i + 1) (rem + 1)) := by
          intro h
          injection h with h1 h2
          exact hx h1
        rw [if_neg hne]
        simp only [setLoop, hget]
        simp [chGet, mapGet_mapSet_other parent (keyAt key i) x _ hx]

/-- `set`'s tree transformation preserves well-formedness. -/
theorem WFNode_setLoop (rem : Nat) (key : List JSVal) (v : JSVal) :
    ∀ (i : Nat) (parent : NodeMap), WFNode (rem + 1) parent = true →
      WFNode (rem + 1) (setLoop parent key i rem v) = true := by
  induction rem with
  | zero =>
    intro i parent hwf
    rw [WFNode_one_iff] at hwf ⊢
    obtain ⟨hnd, hleaf⟩ := hwf
    refine ⟨keysNodup_mapSet _ _ _ hnd, fun kv hkv => ?_⟩
    rcases mem_mapSet _ _ _ kv hkv with h | h
    · exact hleaf kv h
    · exact ⟨v, by rw [h]⟩
  | succ rem ih =>
    intro i parent hwf
    cases hget : mapGet parent (keyAt key i) with
    | some child =>
      obtain ⟨c, rfl, hcwf⟩ := WFNode_mapGet_node rem parent (keyAt key i) child hwf hget
      simp only [setLoop, hget, truthyEntry, if_true]
      rw [WFNode_succ_iff] at hwf ⊢
      obtain ⟨hnd, hnode⟩ := hwf
      refine ⟨keysNodup_mapSet _ _ _ hnd, fun kv hkv => ?_⟩
      rcases mem_mapSet _ _ _ kv hkv with h | h
      · exact hnode kv h
      · exact ⟨setLoop c key (i + 1) rem v, by rw [h], ih (i + 1) c hcwf⟩
    | none =>
      simp only [setLoop, hget]
      rw [WFNode_succ_iff] at hwf ⊢
      obtain ⟨hnd, hnode⟩ := hwf
      refine ⟨keysNodup_mapSet _ _ _ hnd, fun kv hkv => ?_⟩
      rcases mem_mapSet _ _ _ kv hkv with h | h
      · exact hnode kv h
      · exact ⟨setLoop [] key (i + 1) rem v, by rw [h],
          ih (i + 1) [] (WFNode_nil (rem + 1) (by omega))⟩

/-- `delete`'s tree transformation preserves well-formedness. -/
theorem WFNode_deleteLoop (rem : Nat) (key : List JSVal) :
    ∀ (i : Nat) (parent : NodeMap), WFNode (rem + 1) parent = true →
      WFNode (rem + 1) (deleteLoop parent key i rem).1 = true := by
  induction rem with
  | zero =>
    intro i parent hwf
    rw [WFNode_one_iff] at hwf ⊢
    obtain ⟨hnd, hleaf⟩ := hwf
    exact ⟨keysNodup_mapDelete _ _ hnd,
      fun kv hkv => hleaf kv (mem_mapDelete _ _ kv hkv)⟩
  | succ rem ih =>
    intro i parent hwf
    cases hget : mapGet parent (keyAt key i) with
    | some child =>
      obtain ⟨c, rfl, hcwf⟩ := WFNode_mapGet_node rem parent (keyAt key i) child hwf hget
      simp only [deleteLoop, hget, truthyEntry, if_true]
      rw [WFNode_succ_iff] at hwf ⊢
      obtain ⟨hnd, hnode⟩ := hwf
      refine ⟨keysNodup_mapSet _ _ _ hnd, fun kv hkv => ?_⟩
      rcases mem_mapSet _ _ _ kv hkv with h | h
      · exact hnode kv h
      · exact ⟨(deleteLoop c key (i + 1) rem).1, by rw [h], ih (i + 1) c hcwf⟩
    | none =>
      simp only [deleteLoop, hget]
      exact hwf

/-- The `set` loop consults only the key components at indices `i .. i + rem`. -/
theorem setLoop_congr (rem : Nat) (k1 k2 : List JSVal) (v : JSVal) :
    ∀ (i : Nat) (parent : NodeMap),
      (∀ j, i ≤ j → j ≤ i + rem → keyAt k1 j = keyAt k2 j) →
      setLoop parent k1 i rem v = setLoop parent k2 i rem v := by
  induction rem with
  | zero =>
    intro i parent h
    simp [setLoop, h i le_rfl (by omega)]
  | succ rem ih =>
    intro i parent h
    have h0 : keyAt k1 i = keyAt k2 i := h i le_rfl (by omega)
    have hih : ∀ p : NodeMap, setLoop p k1 (i + 1) rem v = setLoop p k2 (i + 1) rem v :=
      fun p => ih (i + 1) p fun j hj1 hj2 => h j (by omega) (by omega)
    simp only [setLoop, h0, hih]

/-- The branch-resolution loop consults only the components at
`i .. i + rem - 1`. -/
theorem getBranchLoop_congr (rem : Nat) (k1 k2 : List JSVal) :
    ∀ (i : Nat) (parent : NodeMap),
      (∀ j, i ≤ j → j < i + rem → keyAt k1 j = keyAt k2 j) →
      getBranchLoop parent k1 i rem = getBranchLoop parent k2 i rem := by
  induction rem with
  | zero => intro i parent h; rfl
  | succ rem ih =>
    intro i parent h
    have h0 : keyAt k1 i = keyAt k2 i := h i le_rfl (by omega)
    have hih : ∀ p : NodeMap, getBranchLoop p k1 (i + 1) rem = getBranchLoop p k2 (i + 1) rem :=
      fun p => ih (i + 1) p fun j hj1 hj2 => h j (by omega) (by omega)
    simp only [getBranchLoop, h0, hih]

/-- The `delete` loop consults only the components at `i .. i + rem`. -/
theorem deleteLoop_congr (rem : Nat) (k1 k2 : List JSVal) :
    ∀ (i : Nat) (parent : NodeMap),
      (∀ j, i ≤ j → j ≤ i + rem → keyAt k1 j = keyAt k2 j) →
      deleteLoop parent k1 i rem = deleteLoop parent k2 i rem := by
  induction rem with
  | zero =>
    intro i parent h
    simp [deleteLoop, h i le_rfl (by omega)]
  | succ rem ih =>
    intro i parent h
    have h0 : keyAt k1 i = keyAt k2 i := h i le_rfl (by omega)
    have hih : ∀ p : NodeMap, deleteLoop p k1 (i + 1) rem = deleteLoop p k2 (i + 1) rem :=
      fun p => ih (i + 1) p fun j hj1 hj2 => h j (by omega) (by omega)
    simp only [deleteLoop, h0, hih]

theorem seg_congr (k1 k2 : List JSVal) (n : Nat) :
    ∀ i, (∀ j, i ≤ j → j < i + n → keyAt k1 j = keyAt k2 j) →
      seg k1 i n = seg k2 i n := by
  induction n with
  | zero => intro i h; rfl
  | succ n ih =>
    intro i h
    rw [seg_succ, seg_succ, h i le_rfl (by omega),
      ih (i + 1) fun j hj1 hj2 => h j (by omega) (by omega)]

theorem normKey_congr (d : Nat) (k1 k2 : List JSVal)
    (h : ∀ j, j < d → keyAt k1 j = keyAt k2 j) : normKey d k1 = normKey d k2 :=
  seg_congr k1 k2 d 0 fun j hj1 hj2 => h j (by omega)

theorem normKey_idem (d : Nat) (key : List JSVal) :
    normKey d (normKey d key) = normKey d key :=
  normKey_congr d (normKey d key) key fun j hj => keyAt_normKey d key j hj

/-! State-level lemmas about the public operations. -/

theorem FixedDepthTreeMap.wf_keyLength (m : FixedDepthTreeMap) (h : m.wf = true) :
    1 ≤ m.keyLength := by
  simp only [FixedDepthTreeMap.wf, Bool.and_eq_true, decide_eq_true_eq] at h
  exact h.1

theorem FixedDepthTreeMap.wf_root (m : FixedDepthTreeMap) (h : m.wf = true) :
    WFNode m.keyLength m.root = true := by
  simp only [FixedDepthTreeMap.wf, Bool.and_eq_true, decide_eq_true_eq] at h
  exact h.2

theorem FixedDepthTreeMap.wf_mk (d : Nat) (root : NodeMap) (hd : 1 ≤ d)
    (hr : WFNode d root = true) :
    FixedDepthTreeMap.wf { keyLength := d, root := root } = true := by
  simp only [FixedDepthTreeMap.wf, Bool.and_eq_true, decide_eq_true_eq]
  exact ⟨hd, hr⟩

theorem FixedDepthTreeMap.wf_empty (d : Nat) (hd : 1 ≤ d) :
    (FixedDepthTreeMap.empty d).wf = true :=
  FixedDepthTreeMap.wf_mk d [] hd (WFNode_nil d hd)

theorem FixedDepthTreeMap.wf_set (m : FixedDepthTreeMap) (key : List JSVal)
    (v : JSVal) (h : m.wf = true) : (m.set key v).wf = true := by
  have hd := m.wf_keyLength h
  have hr := m.wf_root h
  obtain ⟨d, hd1⟩ : ∃ d, m.keyLength = d + 1 := ⟨m.keyLength - 1, by omega⟩
  simp only [FixedDepthTreeMap.wf, FixedDepthTreeMap.set, Bool.and_eq_true,
    decide_eq_true_eq]
  refine ⟨hd, ?_⟩
  rw [hd1] at hr ⊢
  simp only [Nat.add_sub_cancel]
  exact WFNode_setLoop d key v 0 m.root hr

theorem FixedDepthTreeMap.wf_delete (m : FixedDepthTreeMap) (key : List JSVal)
    (h : m.wf = true) : (m.delete key).1.wf = true := by
  have hd := m.wf_keyLength h
  have hr := m.wf_root h
  obtain ⟨d, hd1⟩ : ∃ d, m.keyLength = d + 1 := ⟨m.keyLength - 1, by omega⟩
  simp only [FixedDepthTreeMap.wf, FixedDepthTreeMap.delete, Bool.and_eq_true,
    decide_eq_true_eq]
  refine ⟨hd, ?_⟩
  rw [hd1] at hr ⊢
  simp only [Nat.add_sub_cancel]
  exact WFNode_deleteLoop d key 0 m.root hr

theorem FixedDepthTreeMap.chGet_set_root (m : FixedDepthTreeMap) (key : List JSVal)
    (v : JSVal) (s : List JSVal) (hwf : m.wf = true) (hs : s.length = m.keyLength) :
    chGet (m.set key v).root s =
      if s = normKey m.keyLength key then some (.leaf v) else chGet m.root s := by
  have hd := m.wf_keyLength hwf
  have hr := m.wf_root hwf
  obtain ⟨d, hd1⟩ : ∃ d, m.keyLength = d + 1 := ⟨m.keyLength - 1, by omega⟩
  show chGet (setLoop m.root key 0 (m.keyLength - 1) v) s = _
  rw [hd1] at hr hs ⊢
  simp only [Nat.add_sub_cancel]
  rw [chGet_setLoop d key v 0 m.root s hr hs]
  rfl

theorem FixedDepthTreeMap.set_keyLength (m : FixedDepthTreeMap) (key : List JSVal)
    (v : JSVal) : (m.set key v).keyLength = m.keyLength := rfl

theorem FixedDepthTreeMap.has_set (m : FixedDepthTreeMap) (key1 key2 : List JSVal)
    (v : JSVal) (hwf : m.wf = true) :
    (m.set key2 v).has key1 =
      if normKey m.keyLength key1 = normKey m.keyLength key2 then true
      else m.has key1 := by
  have hd := m.wf_keyLength hwf
  have h1 := has_eq_isSome_chGet (m.set key2 v) key1 hd
  rw [FixedDepthTreeMap.set_keyLength] at h1
  rw [h1, FixedDepthTreeMap.chGet_set_root m key2 v (normKey m.keyLength key1) hwf
    (normKey_length _ _)]
  by_cases he : normKey m.keyLength key1 = normKey m.keyLength key2
  · simp [he]
  · rw [if_neg he, if_neg he, ← has_eq_isSome_chGet m key1 hd]

theorem FixedDepthTreeMap.get_set (m : FixedDepthTreeMap) (key1 key2 : List JSVal)
    (v : JSVal) (hwf : m.wf = true) :
    (m.set key2 v).get key1 =
      if normKey m.keyLength key1 = normKey m.keyLength key2 then v
      else m.get key1 := by
  have hd := m.wf_keyLength hwf
  have h1 := get_eq_chGet (m.set key2 v) key1 hd
  rw [FixedDepthTreeMap.set_keyLength] at h1
  rw [h1, FixedDepthTreeMap.chGet_set_root m key2 v (normKey m.keyLength key1) hwf
    (normKey_length _ _)]
  by_cases he : normKey m.keyLength key1 = normKey m.keyLength key2
  · simp [he]
  · rw [if_neg he, if_neg he, ← get_eq_chGet m key1 hd]

theorem FixedDepthTreeMap.has_empty (d : Nat) (key : List JSVal) (hd : 1 ≤ d) :
    (FixedDepthTreeMap.empty d).has key = false := by
  rw [has_eq_isSome_chGet (FixedDepthTreeMap.empty d) key hd]
  rw [show (FixedDepthTreeMap.empty d).root = [] from rfl, chGet_nil]
  rfl

theorem FixedDepthTreeMap.get_empty (d : Nat) (key : List JSVal) (hd : 1 ≤ d) :
    (FixedDepthTreeMap.empty d).get key = .undefined := by
  rw [get_eq_chGet (FixedDepthTreeMap.empty d) key hd]
  rw [show (FixedDepthTreeMap.empty d).root = [] from rfl, chGet_nil]

/-! Size development: the traversal-based `size` computes the number of
stored leaves. -/

/-- Number of leaves below one stored entry, `d` levels deep. -/
def entryLeaves (d : Nat) : Entry → Nat
  | .leaf _ => 0
  | .node c => leafCount d c

theorem leafCount_eq_sum (d : Nat) (m : NodeMap) :
    leafCount (d + 2) m = (m.map fun kv => entryLeaves (d + 1) kv.2).sum := by
  simp only [leafCount]
  refine congrArg List.sum (List.map_congr_left fun kv hkv => ?_)
  cases h : kv.2 <;> simp [entryLeaves, h]

/-- Replacing the entry at an existing key changes a per-entry sum by the
difference of the two entry contributions. -/
theorem sum_mapSet (m : NodeMap) (k : JSVal) (e e' : Entry) (f : Entry → Nat)
    (hget : mapGet m k = some e) :
    ((mapSet m k e').map fun kv => f kv.2).sum + f e
      = (m.map fun kv => f kv.2).sum + f e' := by
  induction m with
  | nil => simp [mapGet] at hget
  | cons kv rest ih =>
    obtain ⟨k0, v0⟩ := kv
    by_cases h0 : k0 = k
    · subst h0
      simp only [mapGet, if_pos rfl, Option.some.injEq, reduceIte] at hget
      subst hget
      simp only [mapSet, if_pos rfl, reduceIte, List.map_cons, List.sum_cons]
      omega
    · simp only [mapGet, if_neg h0] at hget
      simp only [mapSet, if_neg h0, List.map_cons, List.sum_cons]
      have := ih hget
      omega

/-- The fresh chain `set` builds below the first missing component holds
exactly one leaf. -/
theorem leafCount_setLoop_nil (rem : Nat) (key : List JSVal) (v : JSVal) :
    ∀ i, leafCount (rem + 1) (setLoop [] key i rem v) = 1 := by
  induction rem with
  | zero =>
    intro i
    simp [setLoop, mapSet, leafCount]
  | succ rem ih =>
    intro i
    show leafCount (rem + 2) (setLoop [] key i (rem + 1) v) = 1
    simp only [setLoop, mapGet, mapSet]
    rw [leafCount_eq_sum]
    simp [entryLeaves, ih (i + 1)]

/-- Effect of `set`'s tree transformation on the leaf count: one more leaf
when the consulted key path was absent, unchanged otherwise. -/
theorem leafCount_setLoop (rem : Nat) (key : List JSVal) (v : JSVal) :
    ∀ (i : Nat) (parent : NodeMap), WFNode (rem + 1) parent = true →
      leafCount (rem + 1) (setLoop parent key i rem v)
        = leafCount (rem + 1) parent
          + (if (chGet parent (seg key i (rem + 1))).isSome then 0 else 1) := by
  induction rem with
  | zero =>
    intro i parent hwf
    show leafCount 1 (mapSet parent (keyAt key i) (.leaf v)) = _
    simp only [leafCount, mapSet_length, seg, chGet, mapHas_eq_isSome_mapGet]
  | succ rem ih =>
    intro i parent hwf
    rw [seg_succ key i (rem + 1)]
    cases hget : mapGet parent (keyAt key i) with
    | some child =>
      obtain ⟨c, rfl, hcwf⟩ := WFNode_mapGet_node rem parent (keyAt key i) child hwf hget
      simp only [setLoop, hget, truthyEntry, if_true]
      have hrepl := sum_mapSet parent (keyAt key i) (.node c)
        (.node (setLoop c key (i + 1) rem v)) (entryLeaves (rem + 1)) hget
      have hch : chGet parent (keyAt key i :: seg key (i + 1) (rem + 1))
          = chGet c (seg key (i + 1) (rem + 1)) := by
        have : seg key (i + 1) (rem + 1) = keyAt key (i + 1) :: seg key (i + 2) rem :=
          seg_succ key (i + 1) rem
        rw [this]
        simp [chGet, hget]
      rw [leafCount_eq_sum, leafCount_eq_sum, hch]
      have hc := ih (i + 1) c hcwf
      rw [show entryLeaves (rem + 1) (Entry.node c) = leafCount (rem + 1) c from rfl,
        show entryLeaves (rem + 1) (Entry.node (setLoop c key (i + 1) rem v))
          = leafCount (rem + 1) (setLoop c key (i + 1) rem v) from rfl] at hrepl
      omega
    | none =>
      simp only [setLoop, hget]
      rw [mapSet_of_not_has parent (keyAt key i) _ (by
        rw [mapHas_eq_isSome_mapGet, hget]
        rfl)]
      rw [leafCount_eq_sum, leafCount_eq_sum]
      simp only [List.map_append, List.sum_append, List.map_cons, List.sum_cons,
        List.map_nil, List.sum_nil, entryLeaves]
      have hfresh := leafCount_setLoop_nil rem key v (i + 1)
      have hch : chGet parent (keyAt key i :: seg key (i + 1) (rem + 1)) = none := by
        have : seg key (i + 1) (rem + 1) = keyAt key (i + 1) :: seg key (i + 2) rem :=
          seg_succ key (i + 1) rem
        rw [this]
        simp [chGet, hget]
      rw [hch]
      simp
      omega

theorem leafCount_cons (d : Nat) (kv : JSVal × Entry) (rest : NodeMap) :
    leafCount (d + 2) (kv :: rest) = entryLeaves (d + 1) kv.2 + leafCount (d + 2) rest := by
  rw [leafCount_eq_sum, leafCount_eq_sum]
  simp

/-- The per-branch sum computed by `size`'s traversal is the leaf count of
the tree (`rem` is the traversal's `maxKeyLength`, one less than the tree's
depth). -/
theorem dfiGo_branchSize_sum (rem : Nat) :
    ∀ (path : List JSVal) (parent : NodeMap), 1 ≤ rem →
      ((dfiGo path rem parent).map fun kv => FixedDepthTreeMap.branchSize kv.2).sum
        = leafCount (rem + 1) parent := by
  induction rem with
  | zero =>
    intro path parent h
    omega
  | succ rem ih =>
    intro path parent h
    cases rem with
    | zero =>
      simp only [dfiGo, List.map_map]
      rw [leafCount_eq_sum 0 parent]
      refine congrArg List.sum (List.map_congr_left fun kv hkv => ?_)
      cases hkv2 : kv.2 <;> simp [FixedDepthTreeMap.branchSize, entryLeaves, leafCount, hkv2]
    | succ rem =>
      induction parent with
      | nil => simp [dfiGo, leafCount]
      | cons kv rest ihp =>
        have hsplit : dfiGo path (rem + 2) (kv :: rest)
            = (match kv.2 with
               | Entry.node child => dfiGo (path ++ [kv.1]) (rem + 1) child
               | Entry.leaf _ => ([] : List (List JSVal × Entry)))
              ++ dfiGo path (rem + 2) rest := rfl
        rw [hsplit, List.map_append, List.sum_append, ihp, leafCount_cons]
        cases hkv2 : kv.2 with
        | leaf v => simp [entryLeaves]
        | node child =>
          simp only [entryLeaves]
          rw [ih (path ++ [kv.1]) child (by omega)]

/-- `size` computes the number of stored leaves in the tree. -/
theorem FixedDepthTreeMap.size_eq_leafCount (m : FixedDepthTreeMap)
    (hd : 1 ≤ m.keyLength) : m.size = leafCount m.keyLength m.root := by
  by_cases h1 : m.keyLength = 1
  · simp [FixedDepthTreeMap.size, h1, leafCount]
  · obtain ⟨d, hd2⟩ : ∃ d, m.keyLength = d + 2 := ⟨m.keyLength - 2, by omega⟩
    have hsub : m.keyLength - 1 = d + 1 := by omega
    simp only [FixedDepthTreeMap.size, if_neg h1, hsub, hd2]
    exact dfiGo_branchSize_sum (d + 1) [] m.root (by omega)

/-- Effect of `set` on `size`: `+1` for an absent key, unchanged for a
present key. -/
theorem FixedDepthTreeMap.size_set (m : FixedDepthTreeMap) (key : List JSVal)
    (v : JSVal) (hwf : m.wf = true) :
    (m.set key v).size = m.size + (if m.has key then 0 else 1) := by
  have hd := m.wf_keyLength hwf
  have hr := m.wf_root hwf
  obtain ⟨d, hd1⟩ : ∃ d, m.keyLength = d + 1 := ⟨m.keyLength - 1, by omega⟩
  have hsz1 := FixedDepthTreeMap.size_eq_leafCount (m.set key v) hd
  have hsz2 := FixedDepthTreeMap.size_eq_leafCount m hd
  rw [FixedDepthTreeMap.set_keyLength] at hsz1
  have hroot : (m.set key v).root = setLoop m.root key 0 (m.keyLength - 1) v := rfl
  rw [hsz1, hsz2, hroot]
  have hhas := has_eq_isSome_chGet m key hd
  rw [hd1] at hr hhas ⊢
  simp only [Nat.add_sub_cancel]
  rw [leafCount_setLoop d key v 0 m.root hr]
  rw [show seg key 0 (d + 1) = normKey (d + 1) key from rfl, ← hhas]

/-! Delete development. -/

/-- The boolean `delete` returns is presence of the consulted key path. -/
theorem deleteLoop_snd (rem : Nat) (key : List JSVal) :
    ∀ (i : Nat) (parent : NodeMap), WFNode (rem + 1) parent = true →
      (deleteLoop parent key i rem).2 = (chGet parent (seg key i (rem + 1))).isSome := by
  induction rem with
  | zero =>
    intro i parent hwf
    simp [deleteLoop, mapDelete_snd, seg, chGet, mapHas_eq_isSome_mapGet]
  | succ rem ih =>
    intro i parent hwf
    rw [seg_succ key i (rem + 1)]
    cases hget : mapGet parent (keyAt key i) with
    | some child =>
      obtain ⟨c, rfl, hcwf⟩ := WFNode_mapGet_node rem parent (keyAt key i) child hwf hget
      simp only [deleteLoop, hget, truthyEntry, if_true]
      have hch : chGet parent (keyAt key i :: seg key (i + 1) (rem + 1))
          = chGet c (seg key (i + 1) (rem + 1)) := by
        rw [seg_succ key (i + 1) rem]
        simp [chGet, hget]
      rw [hch]
      exact ih (i + 1) c hcwf
    | none =>
      simp only [deleteLoop, hget]
      have hch : chGet parent (keyAt key i :: seg key (i + 1) (rem + 1)) = none := by
        rw [seg_succ key (i + 1) rem]
        simp [chGet, hget]
      rw [hch]
      rfl

/-- Effect of `delete`'s tree transformation on the reference path lookup:
the consulted key path becomes absent, every other full-length path is
unaffected. -/
theorem chGet_deleteLoop (rem : Nat) (key : List JSVal) :
    ∀ (i : Nat) (parent : NodeMap) (s : List JSVal),
      WFNode (rem + 1) parent = true → s.length = rem + 1 →
      chGet ((deleteLoop parent key i rem).1) s =
        if s = seg key i (rem + 1) then none else chGet parent s := by
  induction rem with
  | zero =>
    intro i parent s hwf hlen
    obtain ⟨x, rfl⟩ : ∃ x, s = [x] := by
      cases s with
      | nil => simp at hlen
      | cons x t =>
        cases t with
        | nil => exact ⟨x, rfl⟩
        | cons y t => simp at hlen
    have hnd := WFNode_keysNodup 1 parent (by omega) hwf
    by_cases hx : x = keyAt key i
    · subst hx
      simp [deleteLoop, chGet, seg, mapGet_mapDelete_self parent _ hnd]
    · simp [deleteLoop, chGet, seg,
        mapGet_mapDelete_other parent (keyAt key i) x hx, hx]
  | succ rem ih =>
    intro i parent s hwf hlen
    obtain ⟨x, y, t, rfl⟩ : ∃ x y t, s = x :: y :: t := by
      cases s with
      | nil => simp at hlen
      | cons x t =>
        cases t with
        | nil => simp at hlen
        | cons y t => exact ⟨x, y, t, rfl⟩
    simp only [List.length_cons] at hlen
    have hlen2 : (y :: t).length = rem + 1 := by
      simp only [List.length_cons]
      omega
    rw [seg_succ key i (rem + 1)]
    cases hget : mapGet parent (keyAt key i) with
    | some child =>
      obtain ⟨c, rfl, hcwf⟩ := WFNode_mapGet_node rem parent (keyAt key i) child hwf hget
      by_cases hx : x = keyAt key i
      · subst hx
        have hstep : chGet ((deleteLoop parent key i (rem + 1)).1) (keyAt key i :: y :: t)
            = chGet ((deleteLoop c key (i + 1) rem).1) (y :: t) := by
          simp [deleteLoop, hget, truthyEntry, chGet, mapGet_mapSet_same]
        rw [hstep, ih (i + 1) c (y :: t) hcwf hlen2]
        by_cases hyt : y :: t = seg key (i + 1) (rem + 1)
        · simp [hyt]
        · have hne : ¬ (keyAt key i :: y :: t
              = keyAt key i :: seg key (i + 1) (rem + 1)) := by
            simpa using hyt
          rw [if_neg hyt, if_neg hne]
          simp [chGet, hget]
      · have hne : ¬ (x :: y :: t = keyAt key i :: seg key (i + 1) (rem + 1)) := by
          intro h
          injection h with h1 h2
          exact hx h1
        rw [if_neg hne]
        simp only [deleteLoop, hget, truthyEntry, if_true]
        simp [chGet, mapGet_mapSet_other parent (keyAt key i) x _ hx]
    | none =>
      have hunch : (deleteLoop parent key i (rem + 1)).1 = parent := by
        simp [deleteLoop, hget]
      rw [hunch]
      by_cases hs : x :: y :: t = keyAt key i :: seg key (i + 1) (rem + 1)
      · rw [if_pos hs, hs]
        simp only [chGet, hget]
        cases seg key (i + 1) (rem + 1) <;> rfl
      · rw [if_neg hs]

/-- `delete` of a key whose branch chain or leaf is absent leaves the tree
unchanged and returns `false`. -/
theorem deleteLoop_not_found (rem : Nat) (key : List JSVal) :
    ∀ (i : Nat) (parent : NodeMap),
      chGet parent (seg key i (rem + 1)) = none →
      deleteLoop parent key i rem = (parent, false) := by
  induction rem with
  | zero =>
    intro i parent hch
    simp only [seg, chGet] at hch
    have : mapHas parent (keyAt key i) = false := by
      rw [mapHas_eq_isSome_mapGet, hch]
      rfl
    simp [deleteLoop, mapDelete_of_not_has parent _ this]
  | succ rem ih =>
    intro i parent hch
    rw [seg_succ key i (rem + 1)] at hch
    cases hget : mapGet parent (keyAt key i) with
    | some child =>
      cases child with
      | node c =>
        have hc : chGet c (seg key (i + 1) (rem + 1)) = none := by
          rw [seg_succ key (i + 1) rem] at hch
          simpa [chGet, hget] using hch
        have hdel := ih (i + 1) c hc
        simp [deleteLoop, hget, truthyEntry, hdel,
          mapSet_of_mapGet_self parent (keyAt key i) _ hget]
      | leaf v =>
        cases htr : truthy v <;> simp [deleteLoop, hget, truthyEntry, htr]
    | none => simp [deleteLoop, hget]

/-- Effect of `delete` on the leaf count: one fewer leaf exactly when the
consulted key path was present. -/
theorem leafCount_deleteLoop (rem : Nat) (key : List JSVal) :
    ∀ (i : Nat) (parent : NodeMap), WFNode (rem + 1) parent = true →
      leafCount (rem + 1) ((deleteLoop parent key i rem).1)
        + (if (chGet parent (seg key i (rem + 1))).isSome then 1 else 0)
        = leafCount (rem + 1) parent := by
  induction rem with
  | zero =>
    intro i parent hwf
    show leafCount 1 (mapDelete parent (keyAt key i)).1 + _ = leafCount 1 parent
    simp only [leafCount, seg, chGet, ← mapHas_eq_isSome_mapGet]
    cases hhas : mapHas parent (keyAt key i) with
    | true => simpa using mapDelete_length parent (keyAt key i) hhas
    | false => simp [mapDelete_of_not_has parent _ hhas]
  | succ rem ih =>
    intro i parent hwf
    rw [seg_succ key i (rem + 1)]
    cases hget : mapGet parent (keyAt key i) with
    | some child =>
      obtain ⟨c, rfl, hcwf⟩ := WFNode_mapGet_node rem parent (keyAt key i) child hwf hget
      simp only [deleteLoop, hget, truthyEntry, if_true]
      have hrepl := sum_mapSet parent (keyAt key i) (.node c)
        (.node (deleteLoop c key (i + 1) rem).1) (entryLeaves (rem + 1)) hget
      rw [show entryLeaves (rem + 1) (Entry.node c) = leafCount (rem + 1) c from rfl,
        show entryLeaves (rem + 1) (Entry.node (deleteLoop c key (i + 1) rem).1)
          = leafCount (rem + 1) (deleteLoop c key (i + 1) rem).1 from rfl] at hrepl
      have hch : chGet parent (keyAt key i :: seg key (i + 1) (rem + 1))
          = chGet c (seg key (i + 1) (rem + 1)) := by
        rw [seg_succ key (i + 1) rem]
        simp [chGet, hget]
      rw [leafCount_eq_sum, leafCount_eq_sum, hch]
      have hc := ih (i + 1) c hcwf
      omega
    | none =>
      have hunch : (deleteLoop parent key i (rem + 1)).1 = parent := by
        simp [deleteLoop, hget]
      have hch : chGet parent (keyAt key i :: seg key (i + 1) (rem + 1)) = none := by
        rw [seg_succ key (i + 1) rem]
        simp [chGet, hget]
      rw [hunch, hch]
      simp

/-- The branch map a key resolves to persists through `delete` (nothing is
pruned): afterwards it resolves to the same map minus the deleted leaf. -/
theorem getBranchLoop_deleteLoop (rem : Nat) (key : List JSVal) :
    ∀ (i : Nat) (parent b : NodeMap), getBranchLoop parent key i rem = some b →
      getBranchLoop ((deleteLoop parent key i rem).1) key i rem
        = some ((mapDelete b (keyAt key (i + rem))).1) := by
  induction rem with
  | zero =>
    intro i parent b hb
    simp only [getBranchLoop, Option.some.injEq] at hb
    subst hb
    rfl
  | succ rem ih =>
    intro i parent b hb
    cases hget : mapGet parent (keyAt key i) with
    | some child =>
      cases child with
      | node c =>
        simp only [getBranchLoop, hget, truthyEntry, if_true] at hb
        have hidx : i + (rem + 1) = (i + 1) + rem := by omega
        simp only [deleteLoop, hget, truthyEntry, if_true, getBranchLoop,
          mapGet_mapSet_same, hidx]
        exact ih (i + 1) c b hb
      | leaf v =>
        rw [getBranchLoop] at hb
        cases htr : truthy v <;> simp [hget, truthyEntry, htr] at hb
    | none =>
      rw [getBranchLoop] at hb
      simp [hget] at hb

theorem FixedDepthTreeMap.delete_keyLength (m : FixedDepthTreeMap) (key : List JSVal) :
    (m.delete key).1.keyLength = m.keyLength := rfl

theorem FixedDepthTreeMap.delete_snd (m : FixedDepthTreeMap) (key : List JSVal)
    (hwf : m.wf = true) : (m.delete key).2 = m.has key := by
  have hd := m.wf_keyLength hwf
  have hr := m.wf_root hwf
  obtain ⟨d, hd1⟩ : ∃ d, m.keyLength = d + 1 := ⟨m.keyLength - 1, by omega⟩
  show (deleteLoop m.root key 0 (m.keyLength - 1)).2 = m.has key
  rw [has_eq_isSome_chGet m key hd]
  rw [hd1] at hr ⊢
  simp only [Nat.add_sub_cancel]
  rw [deleteLoop_snd d key 0 m.root hr]
  rfl

theorem FixedDepthTreeMap.chGet_delete_root (m : FixedDepthTreeMap)
    (key s : List JSVal) (hwf : m.wf = true) (hs : s.length = m.keyLength) :
    chGet (m.delete key).1.root s =
      if s = normKey m.keyLength key then none else chGet m.root s := by
  have hd := m.wf_keyLength hwf
  have hr := m.wf_root hwf
  obtain ⟨d, hd1⟩ : ∃ d, m.keyLength = d + 1 := ⟨m.keyLength - 1, by omega⟩
  show chGet (deleteLoop m.root key 0 (m.keyLength - 1)).1 s = _
  rw [hd1] at hr hs ⊢
  simp only [Nat.add_sub_cancel]
  rw [chGet_deleteLoop d key 0 m.root s hr hs]
  rfl

theorem FixedDepthTreeMap.has_delete_self (m : FixedDepthTreeMap)
    (key : List JSVal) (hwf : m.wf = true) : (m.delete key).1.has key = false := by
  have hd := m.wf_keyLength hwf
  have h1 := has_eq_isSome_chGet (m.delete key).1 key hd
  rw [FixedDepthTreeMap.delete_keyLength] at h1
  rw [h1, FixedDepthTreeMap.chGet_delete_root m key (normKey m.keyLength key) hwf
    (normKey_length _ _), if_pos rfl]
  rfl

theorem FixedDepthTreeMap.size_delete (m : FixedDepthTreeMap) (key : List JSVal)
    (hwf : m.wf = true) :
    (m.delete key).1.size + (if m.has key then 1 else 0) = m.size := by
  have hd := m.wf_keyLength hwf
  have hr := m.wf_root hwf
  obtain ⟨d, hd1⟩ : ∃ d, m.keyLength = d + 1 := ⟨m.keyLength - 1, by omega⟩
  have hsz1 := FixedDepthTreeMap.size_eq_leafCount (m.delete key).1 hd
  have hsz2 := FixedDepthTreeMap.size_eq_leafCount m hd
  rw [FixedDepthTreeMap.delete_keyLength] at hsz1
  have hhas := has_eq_isSome_chGet m key hd
  have hroot : (m.delete key).1.root = (deleteLoop m.root key 0 (m.keyLength - 1)).1 := rfl
  rw [hsz1, hsz2, hroot, hhas]
  rw [hd1] at hr ⊢
  simp only [Nat.add_sub_cancel]
  rw [← leafCount_deleteLoop d key 0 m.root hr]
  rfl

theorem FixedDepthTreeMap.delete_not_found (m : FixedDepthTreeMap)
    (key : List JSVal) (hd : 1 ≤ m.keyLength) (h : m.has key = false) :
    m.delete key = (m, false) := by
  have hch : chGet m.root (normKey m.keyLength key) = none := by
    rw [has_eq_isSome_chGet m key hd] at h
    cases hc : chGet m.root (normKey m.keyLength key) with
    | none => rfl
    | some e =>
      rw [hc] at h
      simp at h
  obtain ⟨d, hd1⟩ : ∃ d, m.keyLength = d + 1 := ⟨m.keyLength - 1, by omega⟩
  rw [hd1] at hch
  have hdel := deleteLoop_not_found d key 0 m.root hch
  show ({ m with root := (deleteLoop m.root key 0 (m.keyLength - 1)).1 },
    (deleteLoop m.root key 0 (m.keyLength - 1)).2) = (m, false)
  rw [hd1]
  simp only [Nat.add_sub_cancel, hdel]
  rw [← hd1]

theorem FixedDepthTreeMap.delete_branch_absent (m : FixedDepthTreeMap)
    (key : List JSVal)
    (h : getBranchLoop m.root key 0 (m.keyLength - 1) = none) :
    m.delete key = (m, false) := by
  have hb := getBranch_read_eq_chGet (m.keyLength - 1) key 0 m.root
  rw [h] at hb
  have hdel := deleteLoop_not_found (m.keyLength - 1) key 0 m.root hb.symm
  show ({ m with root := (deleteLoop m.root key 0 (m.keyLength - 1)).1 },
    (deleteLoop m.root key 0 (m.keyLength - 1)).2) = (m, false)
  rw [hdel]

/-! Entries development: what the depth-first traversal yields. -/

theorem mapHas_of_mem {β : Type} (m : List (JSVal × β)) (kv : JSVal × β)
    (h : kv ∈ m) : mapHas m kv.1 = true := by
  induction m with
  | nil => simp at h
  | cons kv0 rest ih =>
    obtain ⟨k0, v0⟩ := kv0
    rcases List.mem_cons.mp h with h | h
    · subst h
      simp [mapHas]
    · by_cases h0 : k0 = kv.1 <;> simp [mapHas, h0, ih h]

theorem WFNode_tail (d : Nat) (kv : JSVal × Entry) (rest : NodeMap)
    (h : WFNode d (kv :: rest) = true) : WFNode d rest = true := by
  cases d with
  | zero =>
    simp [WFNode] at h
  | succ d =>
    cases d with
    | zero =>
      rw [WFNode_one_iff] at h ⊢
      obtain ⟨hnd, hleaf⟩ := h
      simp only [keysNodup, Bool.and_eq_true] at hnd
      exact ⟨hnd.2, fun kv2 hkv2 => hleaf kv2 (List.mem_cons_of_mem _ hkv2)⟩
    | succ d =>
      rw [WFNode_succ_iff] at h ⊢
      obtain ⟨hnd, hnode⟩ := h
      simp only [keysNodup, Bool.and_eq_true] at hnd
      exact ⟨hnd.2, fun kv2 hkv2 => hnode kv2 (List.mem_cons_of_mem _ hkv2)⟩

/-- Every pair the traversal yields has a key that extends the current path
by exactly `rem` components, the first of which is a key of the current
map. -/
theorem dfiGo_mem_shape (rem : Nat) :
    ∀ (path : List JSVal) (parent : NodeMap) (p : List JSVal × Entry),
      p ∈ dfiGo path rem parent →
      ∃ k s, p.1 = path ++ k :: s ∧ (k :: s).length = rem ∧ mapHas parent k = true := by
  induction rem with
  | zero =>
    intro path parent p hp
    simp [dfiGo] at hp
  | succ rem ih =>
    intro path parent p hp
    cases rem with
    | zero =>
      simp only [dfiGo, List.mem_map] at hp
      obtain ⟨kv, hkv, rfl⟩ := hp
      exact ⟨kv.1, [], rfl, rfl, mapHas_of_mem parent kv hkv⟩
    | succ rem =>
      simp only [dfiGo, List.mem_flatMap] at hp
      obtain ⟨kv, hkv, hmem⟩ := hp
      cases hkv2 : kv.2 with
      | leaf v =>
        rw [hkv2] at hmem
        simp at hmem
      | node c =>
        rw [hkv2] at hmem
        obtain ⟨k1, s1, hshape, hlen, _⟩ := ih (path ++ [kv.1]) c p hmem
        refine ⟨kv.1, k1 :: s1, ?_, ?_, mapHas_of_mem parent kv hkv⟩
        · rw [hshape, List.append_assoc]
          rfl
        · simp only [List.length_cons] at hlen ⊢
          omega

/-- Under well-formedness, full-depth path lookups resolve to leaves. -/
theorem chGet_leaf_of_WF (rem : Nat) :
    ∀ (parent : NodeMap) (s : List JSVal) (e : Entry),
      WFNode rem parent = true → s.length = rem → chGet parent s = some e →
      ∃ v, e = Entry.leaf v := by
  induction rem with
  | zero =>
    intro parent s e hwf hlen hch
    simp [WFNode] at hwf
  | succ rem ih =>
    intro parent s e hwf hlen hch
    cases rem with
    | zero =>
      obtain ⟨x, rfl⟩ : ∃ x, s = [x] := by
        cases s with
        | nil => simp at hlen
        | cons x t =>
          cases t with
          | nil => exact ⟨x, rfl⟩
          | cons y t => simp at hlen
      exact WFNode_mapGet_leaf parent x e hwf hch
    | succ rem =>
      obtain ⟨x, y, t, rfl⟩ : ∃ x y t, s = x :: y :: t := by
        cases s with
        | nil => simp at hlen
        | cons x t =>
          cases t with
          | nil => simp at hlen
          | cons y t => exact ⟨x, y, t, rfl⟩
      simp only [chGet] at hch
      cases hget : mapGet parent x with
      | none =>
        rw [hget] at hch
        simp at hch
      | some child =>
        obtain ⟨c, rfl, hcwf⟩ := WFNode_mapGet_node rem parent x child hwf hget
        rw [hget] at hch
        refine ih c (y :: t) e hcwf ?_ hch
        simp only [List.length_cons] at hlen ⊢
        omega

/-- Under well-formedness, the traversal yields exactly the pairs the
reference path lookup resolves (with paths extending the current one by
`rem` components). -/
theorem dfiGo_mem_iff (rem : Nat) :
    ∀ (path : List JSVal) (parent : NodeMap) (s : List JSVal) (e : Entry),
      WFNode rem parent = true → 1 ≤ rem →
      ((path ++ s, e) ∈ dfiGo path rem parent ↔
        s.length = rem ∧ chGet parent s = some e) := by
  induction rem with
  | zero =>
    intro path parent s e hwf h1
    omega
  | succ rem ih =>
    intro path parent s e hwf h1
    cases rem with
    | zero =>
      have hnd := WFNode_keysNodup 1 parent (by omega) hwf
      simp only [dfiGo, List.mem_map]
      constructor
      · rintro ⟨kv, hkv, heq⟩
        simp only [Prod.mk.injEq] at heq
        obtain ⟨hpth, hval⟩ := heq
        have hs : s = [kv.1] := (List.append_cancel_left hpth).symm
        subst hs
        refine ⟨rfl, ?_⟩
        simp only [chGet]
        rw [← hval]
        exact mapGet_eq_some_of_mem parent kv.1 kv.2 hnd
          (by simpa using hkv)
      · rintro ⟨hlen, hch⟩
        obtain ⟨x, rfl⟩ : ∃ x, s = [x] := by
          cases s with
          | nil => simp at hlen
          | cons x t =>
            cases t with
            | nil => exact ⟨x, rfl⟩
            | cons y t => simp at hlen
        simp only [chGet] at hch
        exact ⟨(x, e), mem_of_mapGet_eq_some parent x e hch, rfl⟩
    | succ rem =>
      constructor
      · intro hp
        simp only [dfiGo, List.mem_flatMap] at hp
        obtain ⟨kv, hkv, hmem⟩ := hp
        obtain ⟨c, hkv2, hcwf⟩ := ((WFNode_succ_iff rem parent).mp hwf).2 kv hkv
        rw [hkv2] at hmem
        obtain ⟨k1, s1, hshape, hlen1, _⟩ := dfiGo_mem_shape (rem + 1)
          (path ++ [kv.1]) c ((path ++ s, e)) hmem
        have hshape2 : path ++ s = (path ++ [kv.1]) ++ (k1 :: s1) := hshape
        rw [List.append_assoc] at hshape2
        have hs : s = kv.1 :: k1 :: s1 := List.append_cancel_left hshape2
        subst hs
        have hmem2 : (((path ++ [kv.1]) ++ (k1 :: s1)), e)
            ∈ dfiGo (path ++ [kv.1]) (rem + 1) c := by
          have heq2 : (path ++ [kv.1]) ++ (k1 :: s1) = path ++ kv.1 :: k1 :: s1 := by
            rw [List.append_assoc]
            rfl
          rw [heq2]
          exact hmem
        have := (ih (path ++ [kv.1]) c (k1 :: s1) e hcwf (by omega)).mp hmem2
        obtain ⟨hlen2, hch2⟩ := this
        have hnd := WFNode_keysNodup (rem + 2) parent (by omega) hwf
        refine ⟨by simp [hlen2], ?_⟩
        simp only [chGet]
        rw [mapGet_eq_some_of_mem parent kv.1 kv.2 hnd (by simpa using hkv), hkv2]
        exact hch2
      · rintro ⟨hlen, hch⟩
        obtain ⟨x, y, t, rfl⟩ : ∃ x y t, s = x :: y :: t := by
          cases s with
          | nil => simp at hlen
          | cons x t =>
            cases t with
            | nil => simp at hlen
            | cons y t => exact ⟨x, y, t, rfl⟩
        simp only [chGet] at hch
        cases hget : mapGet parent x with
        | none =>
          rw [hget] at hch
          simp at hch
        | some child =>
          obtain ⟨c, rfl, hcwf⟩ := WFNode_mapGet_node rem parent x child hwf hget
          rw [hget] at hch
          have hlen2 : (y :: t).length = rem + 1 := by
            simp only [List.length_cons] at hlen ⊢
            omega
          have hmem := (ih (path ++ [x]) c (y :: t) e hcwf (by omega)).mpr
            ⟨hlen2, hch⟩
          simp only [dfiGo, List.mem_flatMap]
          refine ⟨(x, Entry.node c), mem_of_mapGet_eq_some parent x _ hget, ?_⟩
          have heq2 : (path ++ [x]) ++ (y :: t) = path ++ x :: y :: t := by
            rw [List.append_assoc]
            rfl
          rw [heq2] at hmem
          exact hmem

theorem keysNodup_head {β : Type} (kv : JSVal × β) (rest : List (JSVal × β))
    (h : keysNodup (kv :: rest) = true) : mapHas rest kv.1 = false := by
  obtain ⟨k0, v0⟩ := kv
  simp only [keysNodup, Bool.and_eq_true, Bool.not_eq_true', List.any_eq_false,
    beq_iff_eq] at h
  cases hget : mapGet rest k0 with
  | none =>
    rw [mapHas_eq_isSome_mapGet, hget]
    rfl
  | some e =>
    exact absurd rfl (h.1 (k0, e) (mem_of_mapGet_eq_some rest k0 e hget))

/-- The traversal yields pairwise-distinct key paths (one pair per stored
leaf). -/
theorem dfiGo_paths_nodup (rem : Nat) :
    ∀ (path : List JSVal) (parent : NodeMap), WFNode rem parent = true →
      ((dfiGo path rem parent).map Prod.fst).Nodup := by
  induction rem with
  | zero =>
    intro path parent h
    simp [dfiGo]
  | succ rem ih =>
    intro path parent hwf
    cases rem with
    | zero =>
      have hnd := WFNode_keysNodup 1 parent (by omega) hwf
      rw [keysNodup_iff] at hnd
      simp only [dfiGo, List.map_map]
      have hcomp : (parent.map (Prod.fst ∘ fun kv => (path ++ [kv.1], kv.2)))
          = (parent.map Prod.fst).map (fun k => path ++ [k]) := by
        simp [List.map_map]
      rw [hcomp]
      refine List.Nodup.map ?_ hnd
      intro a b hab
      have := List.append_cancel_left hab
      simpa using this
    | succ rem =>
      induction parent with
      | nil => simp [dfiGo]
      | cons kv rest ihp =>
        have hwfrest := WFNode_tail (rem + 2) kv rest hwf
        have hheadnd : mapHas rest kv.1 = false :=
          keysNodup_head kv rest (WFNode_keysNodup (rem + 2) (kv :: rest) (by omega) hwf)
        have hsplit : dfiGo path (rem + 2) (kv :: rest)
            = (match kv.2 with
               | Entry.node child => dfiGo (path ++ [kv.1]) (rem + 1) child
               | Entry.leaf _ => ([] : List (List JSVal × Entry)))
              ++ dfiGo path (rem + 2) rest := rfl
        rw [hsplit, List.map_append]
        refine List.Nodup.append ?_ (ihp hwfrest) ?_
        · cases hkv2 : kv.2 with
          | leaf v => simp
          | node c =>
            obtain ⟨c2, hc2, hcwf⟩ := ((WFNode_succ_iff rem (kv :: rest)).mp hwf).2 kv
              (List.mem_cons_self _ _)
            rw [hkv2] at hc2
            injection hc2 with hc2
            subst hc2
            exact ih (path ++ [kv.1]) c hcwf
        · intro a ha hb
          cases hkv2 : kv.2 with
          | leaf v =>
            rw [hkv2] at ha
            simp at ha
          | node c =>
            rw [hkv2] at ha
            simp only [List.mem_map] at ha hb
            obtain ⟨p1, hp1, rfl⟩ := ha
            obtain ⟨p2, hp2, hp12⟩ := hb
            obtain ⟨ka, sa, hsa, _, _⟩ := dfiGo_mem_shape (rem + 1) (path ++ [kv.1]) c p1 hp1
            obtain ⟨kb, sb, hsb, _, hkb⟩ := dfiGo_mem_shape (rem + 2) path rest p2 hp2
            rw [hp12] at hsb
            rw [hsa] at hsb
            rw [List.append_assoc] at hsb
            have hcons : kv.1 :: (ka :: sa) = kb :: sb := by
              have := List.append_cancel_left hsb
              simpa using this
            injection hcons with hk _
            rw [← hk] at hkb
            rw [hkb] at hheadnd
            exact absurd hheadnd (by simp)

theorem flatMap_congr_left {α γ : Type} (l : List α) (f g : α → List γ)
    (h : ∀ a ∈ l, f a = g a) : l.flatMap f = l.flatMap g := by
  induction l with
  | nil => rfl
  | cons a rest ih =>
    rw [List.flatMap_cons, List.flatMap_cons, h a (by simp),
      ih fun a ha => h a (by simp [ha])]

/-- Overwriting a present key rewrites the stored value in place: the
traversal yields the same sequence of pairs with only the overwritten
path's value replaced (its position is unchanged). -/
theorem dfiGo_setLoop_replace (rem : Nat) (key : List JSVal) (v : JSVal) :
    ∀ (i : Nat) (parent : NodeMap) (path : List JSVal),
      WFNode (rem + 1) parent = true →
      (chGet parent (seg key i (rem + 1))).isSome = true →
      dfiGo path (rem + 1) (setLoop parent key i rem v)
        = (dfiGo path (rem + 1) parent).map
            (fun p => if p.1 = path ++ seg key i (rem + 1) then (p.1, Entry.leaf v)
                      else p) := by
  induction rem with
  | zero =>
    intro i parent path hwf hch
    have hnd := WFNode_keysNodup 1 parent (by omega) hwf
    have hhas : mapHas parent (keyAt key i) = true := by
      rw [mapHas_eq_isSome_mapGet]
      simpa [chGet, seg] using hch
    show dfiGo path 1 (mapSet parent (keyAt key i) (.leaf v)) = _
    rw [mapSet_eq_replace parent (keyAt key i) (.leaf v) hnd hhas]
    simp only [dfiGo, List.map_map]
    refine List.map_congr_left fun kv hkv => ?_
    by_cases hk : kv.1 = keyAt key i
    · simp [hk, seg]
    · have hne : ¬ (path ++ [kv.1] = path ++ seg key i 1) := by
        simp only [seg, List.append_cancel_left_eq, List.cons.injEq, and_true]
        exact hk
      simp [hk, hne]
  | succ rem ih =>
    intro i parent path hwf hch
    rw [seg_succ key i (rem + 1)] at hch ⊢
    cases hget : mapGet parent (keyAt key i) with
    | none =>
      rw [seg_succ key (i + 1) rem] at hch
      simp [chGet, hget] at hch
    | some child =>
      obtain ⟨c, rfl, hcwf⟩ := WFNode_mapGet_node rem parent (keyAt key i) child hwf hget
      have hchc : (chGet c (seg key (i + 1) (rem + 1))).isSome = true := by
        rw [seg_succ key (i + 1) rem] at hch
        simpa [chGet, hget] using hch
      have hnd := WFNode_keysNodup (rem + 2) parent (by omega) hwf
      have hhas : mapHas parent (keyAt key i) = true := by
        rw [mapHas_eq_isSome_mapGet, hget]
        rfl
      simp only [setLoop, hget, truthyEntry, if_true]
      rw [mapSet_eq_replace parent (keyAt key i) _ hnd hhas]
      have harm : dfiGo path (rem + 2)
          (parent.map fun kv => if kv.1 = keyAt key i
            then (kv.1, Entry.node (setLoop c key (i + 1) rem v)) else kv)
          = (parent.map fun kv => if kv.1 = keyAt key i
              then (kv.1, Entry.node (setLoop c key (i + 1) rem v)) else kv).flatMap
              (fun kv => match kv.2 with
               | Entry.node child => dfiGo (path ++ [kv.1]) (rem + 1) child
               | Entry.leaf _ => []) := rfl
      have harm2 : dfiGo path (rem + 2) parent
          = parent.flatMap (fun kv => match kv.2 with
             | Entry.node child => dfiGo (path ++ [kv.1]) (rem + 1) child
             | Entry.leaf _ => []) := rfl
      rw [harm, harm2, List.flatMap_map, List.map_flatMap]
      refine flatMap_congr_left parent _ _ fun kv hkv => ?_
      by_cases hk : kv.1 = keyAt key i
      · have hkv2 : kv.2 = Entry.node c := by
          have hg := mapGet_eq_some_of_mem parent kv.1 kv.2 hnd hkv
          rw [hk, hget] at hg
          injection hg with hg2
          exact hg2.symm
        simp only [Function.comp, hk, reduceIte, hkv2]
        rw [ih (i + 1) c (path ++ [keyAt key i]) hcwf hchc]
        have hpath : (path ++ [keyAt key i]) ++ seg key (i + 1) (rem + 1)
            = path ++ keyAt key i :: seg key (i + 1) (rem + 1) := by
          rw [List.append_assoc]
          rfl
        rw [hpath]
      · simp only [Function.comp, hk, reduceIte]
        cases hkv2 : kv.2 with
        | leaf w => simp
        | node ch =>
          simp only
          have hid : ∀ p ∈ dfiGo (path ++ [kv.1]) (rem + 1) ch,
              (if p.1 = path ++ keyAt key i :: seg key (i + 1) (rem + 1)
               then (p.1, Entry.leaf v) else p) = p := by
            intro p hp
            obtain ⟨k1, s1, hsh, _, _⟩ :=
              dfiGo_mem_shape (rem + 1) (path ++ [kv.1]) ch p hp
            have hne : p.1 ≠ path ++ keyAt key i :: seg key (i + 1) (rem + 1) := by
              rw [hsh, List.append_assoc]
              intro hcontra
              have hc2 := List.append_cancel_left hcontra
              simp only [List.cons_append, List.nil_append, List.cons.injEq] at hc2
              exact hk hc2.1
            rw [if_neg hne]
          rw [List.map_congr_left hid]
          simp

theorem mapSet_mapSet_same {β : Type} (m : List (JSVal × β)) (k : JSVal) (a b : β) :
    mapSet (mapSet m k a) k b = mapSet m k b := by
  induction m with
  | nil => simp [mapSet]
  | cons kv rest ih =>
    obtain ⟨k0, v0⟩ := kv
    by_cases h0 : k0 = k
    · simp [mapSet, h0]
    · simp [mapSet, h0, ih]

theorem dfiGo_append (rem : Nat) (path : List JSVal) (l1 l2 : NodeMap) :
    dfiGo path rem (l1 ++ l2) = dfiGo path rem l1 ++ dfiGo path rem l2 := by
  cases rem with
  | zero => rfl
  | succ rem =>
    cases rem with
    | zero => simp [dfiGo]
    | succ rem => simp [dfiGo, List.flatMap_append]

/-- Replacing an existing child map with one that traverses identically
leaves the whole traversal unchanged. -/
theorem dfiGo_mapSet_child (rem : Nat) (parent : NodeMap) (k : JSVal)
    (c c2 : NodeMap) (path : List JSVal)
    (hnd : keysNodup parent = true) (hget : mapGet parent k = some (Entry.node c))
    (hsame : dfiGo (path ++ [k]) (rem + 1) c2 = dfiGo (path ++ [k]) (rem + 1) c) :
    dfiGo path (rem + 2) (mapSet parent k (Entry.node c2))
      = dfiGo path (rem + 2) parent := by
  rw [mapSet_eq_replace parent k _ hnd
    (by rw [mapHas_eq_isSome_mapGet, hget]; rfl)]
  have harm : dfiGo path (rem + 2)
      (parent.map fun kv => if kv.1 = k then (kv.1, Entry.node c2) else kv)
      = (parent.map fun kv => if kv.1 = k then (kv.1, Entry.node c2) else kv).flatMap
          (fun kv => match kv.2 with
           | Entry.node child => dfiGo (path ++ [kv.1]) (rem + 1) child
           | Entry.leaf _ => []) := rfl
  have harm2 : dfiGo path (rem + 2) parent
      = parent.flatMap (fun kv => match kv.2 with
         | Entry.node child => dfiGo (path ++ [kv.1]) (rem + 1) child
         | Entry.leaf _ => []) := rfl
  rw [harm, harm2, List.flatMap_map]
  refine flatMap_congr_left parent _ _ fun kv hkv => ?_
  by_cases hk : kv.1 = k
  · have hkv2 : kv.2 = Entry.node c := by
      have hg := mapGet_eq_some_of_mem parent kv.1 kv.2 hnd hkv
      rw [hk, hget] at hg
      injection hg with hg2
      exact hg2.symm
    simp only [Function.comp, hk, reduceIte, hkv2]
    exact hsame
  · simp only [Function.comp, hk, reduceIte]

/-- Deleting the key just stored in a fresh chain empties it: the chain's
traversal yields nothing. -/
theorem dfiGo_set_delete_nil (rem : Nat) (key : List JSVal) (v : JSVal) :
    ∀ (i : Nat) (path : List JSVal),
      dfiGo path (rem + 1) ((deleteLoop (setLoop [] key i rem v) key i rem).1) = [] := by
  induction rem with
  | zero =>
    intro i path
    simp [setLoop, mapSet, deleteLoop, mapDelete, dfiGo]
  | succ rem ih =>
    intro i path
    have h1 : setLoop [] key i (rem + 1) v
        = [(keyAt key i, Entry.node (setLoop [] key (i + 1) rem v))] := rfl
    rw [h1]
    have h2 : deleteLoop [(keyAt key i, Entry.node (setLoop [] key (i + 1) rem v))]
        key i (rem + 1)
        = ([(keyAt key i,
             Entry.node (deleteLoop (setLoop [] key (i + 1) rem v) key (i + 1) rem).1)],
           (deleteLoop (setLoop [] key (i + 1) rem v) key (i + 1) rem).2) := by
      simp [deleteLoop, mapGet, truthyEntry, mapSet]
    rw [h2]
    have h3 : dfiGo path (rem + 2)
        [(keyAt key i,
          Entry.node (deleteLoop (setLoop [] key (i + 1) rem v) key (i + 1) rem).1)]
        = dfiGo (path ++ [keyAt key i]) (rem + 1)
            (deleteLoop (setLoop [] key (i + 1) rem v) key (i + 1) rem).1 := by
      simp [dfiGo]
    rw [h3, ih (i + 1) (path ++ [keyAt key i])]

/-- Setting a key whose branch chain was absent and deleting it again
leaves the traversal output unchanged (the now-empty branch chain persists
in the tree but yields no pairs). -/
theorem dfiGo_set_delete_absent (rem : Nat) (key : List JSVal) (v : JSVal) :
    ∀ (i : Nat) (parent : NodeMap) (path : List JSVal),
      WFNode (rem + 1) parent = true →
      getBranchLoop parent key i rem = none →
      dfiGo path (rem + 1) ((deleteLoop (setLoop parent key i rem v) key i rem).1)
        = dfiGo path (rem + 1) parent := by
  induction rem with
  | zero =>
    intro i parent path hwf hb
    simp [getBranchLoop] at hb
  | succ rem ih =>
    intro i parent path hwf hb
    have hnd := WFNode_keysNodup (rem + 2) parent (by omega) hwf
    cases hget : mapGet parent (keyAt key i) with
    | some child =>
      obtain ⟨c, rfl, hcwf⟩ := WFNode_mapGet_node rem parent (keyAt key i) child hwf hget
      have hbc : getBranchLoop c key (i + 1) rem = none := by
        simpa [getBranchLoop, hget, truthyEntry] using hb
      simp only [setLoop, hget, truthyEntry, if_true]
      have hget2 : mapGet (mapSet parent (keyAt key i)
          (Entry.node (setLoop c key (i + 1) rem v))) (keyAt key i)
          = some (Entry.node (setLoop c key (i + 1) rem v)) :=
        mapGet_mapSet_same parent (keyAt key i) _
      simp only [deleteLoop, hget2, truthyEntry, if_true]
      rw [mapSet_mapSet_same]
      exact dfiGo_mapSet_child rem parent (keyAt key i) c _ path hnd hget
        (ih (i + 1) c (path ++ [keyAt key i]) hcwf hbc)
    | none =>
      have hhas : mapHas parent (keyAt key i) = false := by
        rw [mapHas_eq_isSome_mapGet, hget]
        rfl
      simp only [setLoop, hget]
      rw [mapSet_of_not_has parent (keyAt key i) _ hhas]
      have hget2 : mapGet (parent ++ [(keyAt key i,
          Entry.node (setLoop [] key (i + 1) rem v))]) (keyAt key i)
          = some (Entry.node (setLoop [] key (i + 1) rem v)) := by
        have := mapSet_of_not_has parent (keyAt key i)
          (Entry.node (setLoop [] key (i + 1) rem v)) hhas
        rw [← this]
        exact mapGet_mapSet_same parent (keyAt key i) _
      simp only [deleteLoop, hget2, truthyEntry, if_true]
      have hcollapse : mapSet (parent ++ [(keyAt key i,
          Entry.node (setLoop [] key (i + 1) rem v))]) (keyAt key i)
          (Entry.node (deleteLoop (setLoop [] key (i + 1) rem v) key (i + 1) rem).1)
          = parent ++ [(keyAt key i,
              Entry.node (deleteLoop (setLoop [] key (i + 1) rem v) key (i + 1) rem).1)] := by
        have hms := mapSet_of_not_has parent (keyAt key i)
          (Entry.node (setLoop [] key (i + 1) rem v)) hhas
        rw [← hms, mapSet_mapSet_same]
        exact mapSet_of_not_has parent (keyAt key i) _ hhas
      rw [hcollapse, dfiGo_append]
      have hnil : dfiGo path (rem + 2) [(keyAt key i,
          Entry.node (deleteLoop (setLoop [] key (i + 1) rem v) key (i + 1) rem).1)]
          = [] := by
        have h3 : dfiGo path (rem + 2) [(keyAt key i,
            Entry.node (deleteLoop (setLoop [] key (i + 1) rem v) key (i + 1) rem).1)]
            = dfiGo (path ++ [keyAt key i]) (rem + 1)
                (deleteLoop (setLoop [] key (i + 1) rem v) key (i + 1) rem).1 := by
          simp [dfiGo]
        rw [h3]
        exact dfiGo_set_delete_nil rem key v (i + 1) (path ++ [keyAt key i])
      rw [hnil, List.append_nil]

/-- The branch resolved by `set` exists afterwards (branches are created
lazily by `set`). -/
theorem getBranchLoop_setLoop_isSome (rem : Nat) (key : List JSVal) (v : JSVal)
    (i : Nat) (parent : NodeMap) (hwf : WFNode (rem + 1) parent = true) :
    (getBranchLoop (setLoop parent key i rem v) key i rem).isSome = true := by
  have hch := chGet_setLoop rem key v i parent (seg key i (rem + 1)) hwf
    (seg_length key i (rem + 1))
  rw [if_pos rfl] at hch
  have hb := getBranch_read_eq_chGet rem key i (setLoop parent key i rem v)
  rw [hch] at hb
  cases hg : getBranchLoop (setLoop parent key i rem v) key i rem with
  | none =>
    rw [hg] at hb
    simp at hb
  | some b => rfl

/-! Error behavior of the constructor and the traversal, and the
`Except`-level forms of `size` and `entries`. -/

theorem FixedDepthTreeMap.create_error_iff (kl : Int) :
    (∃ e, FixedDepthTreeMap.create kl = .error e) ↔ kl < 1 := by
  by_cases h : kl < 1 <;> simp [FixedDepthTreeMap.create, h]

theorem FixedDepthTreeMap.create_ok (kl : Int) (h : 1 ≤ kl) :
    FixedDepthTreeMap.create kl = .ok (FixedDepthTreeMap.empty kl.toNat)
      ∧ (FixedDepthTreeMap.empty kl.toNat).wf = true := by
  constructor
  · simp [FixedDepthTreeMap.create, FixedDepthTreeMap.empty]
    omega
  · exact FixedDepthTreeMap.wf_empty kl.toNat (by omega)

theorem depthFirstIterate_error_iff (path : List JSVal) (ml : Nat)
    (parent : NodeMap) :
    (∃ e, depthFirstIterate path ml parent = .error e) ↔ ml = 0 := by
  by_cases h : ml = 0 <;> simp [depthFirstIterate, h]

theorem FixedDepthTreeMap.entriesE_eq_ok (m : FixedDepthTreeMap)
    (hd : 1 ≤ m.keyLength) : m.entriesE = .ok m.entriesList := by
  have h0 : ¬ m.keyLength = 0 := by omega
  simp [FixedDepthTreeMap.entriesE, FixedDepthTreeMap.entriesList,
    depthFirstIterate, h0]

theorem FixedDepthTreeMap.sizeE_eq_ok (m : FixedDepthTreeMap)
    (hd : 1 ≤ m.keyLength) : m.sizeE = .ok m.size := by
  by_cases h1 : m.keyLength = 1
  · simp [FixedDepthTreeMap.sizeE, FixedDepthTreeMap.size, h1]
  · have h0 : ¬ m.keyLength - 1 = 0 := by omega
    simp [FixedDepthTreeMap.sizeE, FixedDepthTreeMap.size, h1,
      depthFirstIterate, h0]

/-! Characterization of `entries` output at the state level. -/

theorem FixedDepthTreeMap.entriesList_mem_iff (m : FixedDepthTreeMap)
    (hwf : m.wf = true) (k : List JSVal) (e : Entry) :
    (k, e) ∈ m.entriesList ↔
      k.length = m.keyLength ∧ chGet m.root k = some e := by
  have hd := m.wf_keyLength hwf
  have hr := m.wf_root hwf
  have := dfiGo_mem_iff m.keyLength [] m.root k e hr hd
  simpa [FixedDepthTreeMap.entriesList] using this

theorem FixedDepthTreeMap.entriesList_mem_leaf_iff (m : FixedDepthTreeMap)
    (hwf : m.wf = true) (k : List JSVal) (v : JSVal) :
    (k, Entry.leaf v) ∈ m.entriesList ↔
      k.length = m.keyLength ∧ m.has k = true ∧ m.get k = v := by
  have hd := m.wf_keyLength hwf
  have hr := m.wf_root hwf
  rw [FixedDepthTreeMap.entriesList_mem_iff m hwf k (Entry.leaf v)]
  constructor
  · rintro ⟨hlen, hch⟩
    have hnk : normKey m.keyLength k = k := normKey_self m.keyLength k hlen
    refine ⟨hlen, ?_, ?_⟩
    · rw [has_eq_isSome_chGet m k hd, hnk, hch]
      rfl
    · rw [get_eq_chGet m k hd, hnk, hch]
  · rintro ⟨hlen, hhas, hget⟩
    have hnk : normKey m.keyLength k = k := normKey_self m.keyLength k hlen
    rw [has_eq_isSome_chGet m k hd, hnk] at hhas
    cases hch : chGet m.root k with
    | none =>
      rw [hch] at hhas
      simp at hhas
    | some e =>
      obtain ⟨w, rfl⟩ := chGet_leaf_of_WF m.keyLength m.root k e hr hlen hch
      rw [get_eq_chGet m k hd, hnk, hch] at hget
      simp only at hget
      exact ⟨hlen, by rw [hget]⟩

theorem FixedDepthTreeMap.entriesList_shape (m : FixedDepthTreeMap)
    (hwf : m.wf = true) (p : List JSVal × Entry) (hp : p ∈ m.entriesList) :
    p.1.length = m.keyLength ∧ ∃ v, p.2 = Entry.leaf v := by
  have hd := m.wf_keyLength hwf
  have hr := m.wf_root hwf
  obtain ⟨k1, s1, hsh, hlen, _⟩ :=
    dfiGo_mem_shape m.keyLength [] m.root p hp
  have hlen2 : p.1.length = m.keyLength := by
    rw [hsh]
    simpa using hlen
  refine ⟨hlen2, ?_⟩
  have hmem : (p.1, p.2) ∈ m.entriesList := hp
  rw [FixedDepthTreeMap.entriesList_mem_iff m hwf p.1 p.2] at hmem
  exact chGet_leaf_of_WF m.keyLength m.root p.1 p.2 hr hlen2 hmem.2

theorem FixedDepthTreeMap.entriesList_nodup (m : FixedDepthTreeMap)
    (hwf : m.wf = true) : (m.entriesList.map Prod.fst).Nodup :=
  dfiGo_paths_nodup m.keyLength [] m.root (m.wf_root hwf)

theorem FixedDepthTreeMap.entriesList_set_replace (m : FixedDepthTreeMap)
    (key : List JSVal) (v : JSVal) (hwf : m.wf = true)
    (hhas : m.has key = true) :
    (m.set key v).entriesList
      = m.entriesList.map
          (fun p => if p.1 = normKey m.keyLength key then (p.1, Entry.leaf v)
                    else p) := by
  have hd := m.wf_keyLength hwf
  have hr := m.wf_root hwf
  obtain ⟨d, hd1⟩ : ∃ d, m.keyLength = d + 1 := ⟨m.keyLength - 1, by omega⟩
  have hch : (chGet m.root (normKey m.keyLength key)).isSome = true := by
    rw [← has_eq_isSome_chGet m key hd]
    exact hhas
  show dfiGo [] m.keyLength (setLoop m.root key 0 (m.keyLength - 1) v) = _
  rw [hd1] at hr hch ⊢
  simp only [Nat.add_sub_cancel]
  rw [dfiGo_setLoop_replace d key v 0 m.root [] hr hch]
  have hent : m.entriesList = dfiGo [] (d + 1) m.root := by
    show dfiGo [] m.keyLength m.root = dfiGo [] (d + 1) m.root
    rw [hd1]
  rw [hent]
  rfl

theorem FixedDepthTreeMap.entriesList_set_delete_absent (m : FixedDepthTreeMap)
    (key : List JSVal) (v : JSVal) (hwf : m.wf = true)
    (hb : getBranchLoop m.root key 0 (m.keyLength - 1) = none) :
    ((m.set key v).delete key).1.entriesList = m.entriesList := by
  have hd := m.wf_keyLength hwf
  have hr := m.wf_root hwf
  obtain ⟨d, hd1⟩ : ∃ d, m.keyLength = d + 1 := ⟨m.keyLength - 1, by omega⟩
  show dfiGo [] m.keyLength
    ((deleteLoop (setLoop m.root key 0 (m.keyLength - 1) v) key 0
      (m.keyLength - 1)).1) = dfiGo [] m.keyLength m.root
  rw [hd1] at hr hb ⊢
  simp only [Nat.add_sub_cancel] at hb ⊢
  exact dfiGo_set_delete_absent d key v 0 m.root [] hr hb

theorem dfiGo_nil (rem : Nat) (path : List JSVal) : dfiGo path rem [] = [] := by
  cases rem with
  | zero => rfl
  | succ rem =>
    cases rem with
    | zero => rfl
    | succ rem => rfl

theorem FixedDepthTreeMap.size_empty (d : Nat) :
    (FixedDepthTreeMap.empty d).size = 0 := by
  by_cases h1 : d = 1
  · simp [FixedDepthTreeMap.size, FixedDepthTreeMap.empty, h1]
  · have h2 : (FixedDepthTreeMap.empty d).keyLength = d := rfl
    simp [FixedDepthTreeMap.size, FixedDepthTreeMap.empty, h1, dfiGo_nil]

/-- Folding a list of `set` calls over a map that contains none of the keys,
with the keys pairwise distinct up to the consulted components, grows the
size by the number of pairs. -/
theorem foldl_set_size (d : Nat) :
    ∀ (pairs : List (List JSVal × JSVal)) (m : FixedDepthTreeMap),
      m.keyLength = d → m.wf = true →
      (pairs.map fun p => normKey d p.1).Nodup →
      (∀ p ∈ pairs, m.has p.1 = false) →
      (pairs.foldl (fun m p => m.set p.1 p.2) m).size = m.size + pairs.length := by
  intro pairs
  induction pairs with
  | nil =>
    intro m hk hwf hnd hnew
    simp
  | cons p rest ih =>
    intro m hk hwf hnd hnew
    simp only [List.foldl_cons]
    have hwf2 := FixedDepthTreeMap.wf_set m p.1 p.2 hwf
    have hsz := FixedDepthTreeMap.size_set m p.1 p.2 hwf
    rw [hnew p (by simp), if_neg (by simp)] at hsz
    simp only [List.map_cons, List.nodup_cons] at hnd
    have hrest : ∀ q ∈ rest, (m.set p.1 p.2).has q.1 = false := by
      intro q hq
      rw [FixedDepthTreeMap.has_set m q.1 p.1 p.2 hwf]
      have hne : normKey m.keyLength q.1 ≠ normKey m.keyLength p.1 := by
        rw [hk]
        intro hcontra
        exact hnd.1 (hcontra ▸ List.mem_map_of_mem (fun q => normKey d q.1) hq)
      rw [if_neg hne]
      exact hnew q (by simp [hq])
    rw [ih (m.set p.1 p.2) (by rw [FixedDepthTreeMap.set_keyLength]; exact hk)
      hwf2 hnd.2 hrest, hsz]
    simp only [List.length_cons]
    omega

/-! Claim theorems. -/

/-- C1: for every map constructed with depth ≥ 1 (well-formedness includes
`1 ≤ keyLength`), every value `v`, and all key sequences `k1`, `k2` of
length ≥ depth whose components are pairwise SameValueZero-equal at
positions `0 .. depth-1`, after `set(k1, v)` the calls `get(k2)` return `v`
and `has(k2)` return `true` (the model identifies SameValueZero-equivalent
components, so distinct sequence instances with equal components are the
same `List JSVal`, and the hypotheses only constrain components, never
instance identity). -/
theorem claim_value_equality_keys (m : FixedDepthTreeMap) (v : JSVal)
    (k1 k2 : List JSVal) (hwf : m.wf = true)
    (_hl1 : m.keyLength ≤ k1.length) (_hl2 : m.keyLength ≤ k2.length)
    (heq : ∀ j, j < m.keyLength → keyAt k1 j = keyAt k2 j) :
    (m.set k1 v).get k2 = v ∧ (m.set k1 v).has k2 = true := by
  have hn : normKey m.keyLength k2 = normKey m.keyLength k1 :=
    normKey_congr m.keyLength k2 k1 fun j hj => (heq j hj).symm
  constructor
  · rw [FixedDepthTreeMap.get_set m k2 k1 v hwf, if_pos hn]
  · rw [FixedDepthTreeMap.has_set m k2 k1 v hwf, if_pos hn]

theorem claim_value_equality_keys_witness :
    ((FixedDepthTreeMap.empty 2).wf = true
      ∧ 2 ≤ ([JSVal.num 1, JSVal.num 2, JSVal.num 3] : List JSVal).length
      ∧ 2 ≤ ([JSVal.num 1, JSVal.num 2] : List JSVal).length
      ∧ (∀ j, j < 2 → keyAt [JSVal.num 1, JSVal.num 2, JSVal.num 3] j
          = keyAt [JSVal.num 1, JSVal.num 2] j))
    ∧ (((FixedDepthTreeMap.empty 2).set [JSVal.num 1, JSVal.num 2, JSVal.num 3]
          (JSVal.str "x")).get [JSVal.num 1, JSVal.num 2] = JSVal.str "x"
        ∧ ((FixedDepthTreeMap.empty 2).set [JSVal.num 1, JSVal.num 2, JSVal.num 3]
            (JSVal.str "x")).has [JSVal.num 1, JSVal.num 2] = true) :=
  ⟨⟨by decide, by decide, by decide, by decide⟩,
    claim_value_equality_keys (FixedDepthTreeMap.empty 2) (JSVal.str "x")
      [JSVal.num 1, JSVal.num 2, JSVal.num 3] [JSVal.num 1, JSVal.num 2]
      (by decide) (by decide) (by decide) (by decide)⟩

/-- C5: every operation consults exactly the first `depth` components of
the key: each of `get`, `has`, `set` and `delete` computes the same result
on `key` as on `normKey depth key`, the key normalized to exactly `depth`
components; and that normalization is truncation for keys longer than
`depth` and padding with the absent component `undefined` for shorter keys,
uniformly for all four operations. -/
theorem claim_key_length_tolerance (m : FixedDepthTreeMap) (key : List JSVal)
    (v : JSVal) (hd : 1 ≤ m.keyLength) :
    m.get key = m.get (normKey m.keyLength key)
    ∧ m.has key = m.has (normKey m.keyLength key)
    ∧ m.set key v = m.set (normKey m.keyLength key) v
    ∧ m.delete key = m.delete (normKey m.keyLength key)
    ∧ (m.keyLength ≤ key.length → normKey m.keyLength key = key.take m.keyLength)
    ∧ (key.length ≤ m.keyLength →
        normKey m.keyLength key
          = key ++ List.replicate (m.keyLength - key.length) .undefined) := by
  have hagree : ∀ j, 0 ≤ j → j ≤ 0 + (m.keyLength - 1) →
      keyAt key j = keyAt (normKey m.keyLength key) j := by
    intro j hj1 hj2
    exact (keyAt_normKey m.keyLength key j (by omega)).symm
  refine ⟨?_, ?_, ?_, ?_, normKey_of_le_length m.keyLength key,
    normKey_of_length_le m.keyLength key⟩
  · rw [get_eq_chGet m key hd, get_eq_chGet m (normKey m.keyLength key) hd,
      normKey_idem]
  · rw [has_eq_isSome_chGet m key hd,
      has_eq_isSome_chGet m (normKey m.keyLength key) hd, normKey_idem]
  · show ({ m with root := setLoop m.root key 0 (m.keyLength - 1) v } :
        FixedDepthTreeMap) = _
    rw [setLoop_congr (m.keyLength - 1) key (normKey m.keyLength key) v 0
      m.root hagree]
    rfl
  · show ((⟨_, (deleteLoop m.root key 0 (m.keyLength - 1)).1⟩ :
        FixedDepthTreeMap), (deleteLoop m.root key 0 (m.keyLength - 1)).2) = _
    rw [deleteLoop_congr (m.keyLength - 1) key (normKey m.keyLength key) 0
      m.root hagree]
    rfl

theorem claim_key_length_tolerance_witness :
    (1 ≤ (FixedDepthTreeMap.empty 2).keyLength)
    ∧ ((FixedDepthTreeMap.empty 2).get [JSVal.num 7, JSVal.num 8, JSVal.num 9]
        = (FixedDepthTreeMap.empty 2).get
            (normKey 2 [JSVal.num 7, JSVal.num 8, JSVal.num 9])
      ∧ (FixedDepthTreeMap.empty 2).has [JSVal.num 7, JSVal.num 8, JSVal.num 9]
        = (FixedDepthTreeMap.empty 2).has
            (normKey 2 [JSVal.num 7, JSVal.num 8, JSVal.num 9])
      ∧ (FixedDepthTreeMap.empty 2).set [JSVal.num 7, JSVal.num 8, JSVal.num 9]
          (JSVal.str "v")
        = (FixedDepthTreeMap.empty 2).set
            (normKey 2 [JSVal.num 7, JSVal.num 8, JSVal.num 9]) (JSVal.str "v")
      ∧ (FixedDepthTreeMap.empty 2).delete [JSVal.num 7, JSVal.num 8, JSVal.num 9]
        = (FixedDepthTreeMap.empty 2).delete
            (normKey 2 [JSVal.num 7, JSVal.num 8, JSVal.num 9])
      ∧ (2 ≤ ([JSVal.num 7, JSVal.num 8, JSVal.num 9] : List JSVal).length →
          normKey 2 [JSVal.num 7, JSVal.num 8, JSVal.num 9]
            = ([JSVal.num 7, JSVal.num 8, JSVal.num 9] : List JSVal).take 2)
      ∧ (([JSVal.num 7, JSVal.num 8, JSVal.num 9] : List JSVal).length ≤ 2 →
          normKey 2 [JSVal.num 7, JSVal.num 8, JSVal.num 9]
            = [JSVal.num 7, JSVal.num 8, JSVal.num 9]
              ++ List.replicate (2 - 3) .undefined)) :=
  ⟨by decide,
    claim_key_length_tolerance (FixedDepthTreeMap.empty 2)
      [JSVal.num 7, JSVal.num 8, JSVal.num 9] (JSVal.str "v") (by decide)⟩

/-- C6: intermediate branch maps are created only by `set` (the second
conjunct: after `set(key, v)` the branch for `key` exists).  The embedding
is pure, so the read-only operations `get`, `has` and `entries` take the
state and return a result without producing a new state — they cannot
modify or allocate by construction — and the checkable content of the
read-only frame is the first conjunct: `delete` with an absent intermediate
branch returns `false` with the state exactly unchanged. -/
theorem claim_lazy_branch_creation (m : FixedDepthTreeMap) (key : List JSVal)
    (v : JSVal) :
    (getBranchLoop m.root key 0 (m.keyLength - 1) = none →
      m.delete key = (m, false))
    ∧ (m.wf = true →
        (getBranchLoop (m.set key v).root key 0 (m.keyLength - 1)).isSome = true) := by
  constructor
  · exact FixedDepthTreeMap.delete_branch_absent m key
  · intro hwf
    have hr := m.wf_root hwf
    have hd := m.wf_keyLength hwf
    obtain ⟨d, hd1⟩ : ∃ d, m.keyLength = d + 1 := ⟨m.keyLength - 1, by omega⟩
    show (getBranchLoop (setLoop m.root key 0 (m.keyLength - 1) v) key 0
      (m.keyLength - 1)).isSome = true
    rw [hd1] at hr ⊢
    simp only [Nat.add_sub_cancel]
    exact getBranchLoop_setLoop_isSome d key v 0 m.root hr

theorem claim_lazy_branch_creation_witness :
    (getBranchLoop (FixedDepthTreeMap.empty 2).root [JSVal.num 1, JSVal.num 2] 0
        ((FixedDepthTreeMap.empty 2).keyLength - 1) = none
      ∧ (FixedDepthTreeMap.empty 2).wf = true)
    ∧ ((FixedDepthTreeMap.empty 2).delete [JSVal.num 1, JSVal.num 2]
        = (FixedDepthTreeMap.empty 2, false)
      ∧ (getBranchLoop
          ((FixedDepthTreeMap.empty 2).set [JSVal.num 1, JSVal.num 2]
            (JSVal.str "v")).root
          [JSVal.num 1, JSVal.num 2] 0
          ((FixedDepthTreeMap.empty 2).keyLength - 1)).isSome = true) :=
  ⟨⟨rfl, by decide⟩,
    ⟨(claim_lazy_branch_creation (FixedDepthTreeMap.empty 2)
        [JSVal.num 1, JSVal.num 2] (JSVal.str "v")).1 rfl,
      (claim_lazy_branch_creation (FixedDepthTreeMap.empty 2)
        [JSVal.num 1, JSVal.num 2] (JSVal.str "v")).2 (by decide)⟩⟩

/-- C9: writing one key does not disturb any inequivalent key (keys not
componentwise value-equal on the first `depth` components): after
`set(k2, v2)`, `get(k1)` and `has(k1)` are unchanged, and the size grows by
exactly 1 when `k2` was absent and 0 when it was present. -/
theorem claim_set_frame (m : FixedDepthTreeMap) (k1 k2 : List JSVal)
    (v2 : JSVal) (hwf : m.wf = true)
    (hne : normKey m.keyLength k1 ≠ normKey m.keyLength k2) :
    (m.set k2 v2).get k1 = m.get k1
    ∧ (m.set k2 v2).has k1 = m.has k1
    ∧ (m.set k2 v2).size = m.size + (if m.has k2 then 0 else 1) := by
  refine ⟨?_, ?_, FixedDepthTreeMap.size_set m k2 v2 hwf⟩
  · rw [FixedDepthTreeMap.get_set m k1 k2 v2 hwf, if_neg hne]
  · rw [FixedDepthTreeMap.has_set m k1 k2 v2 hwf, if_neg hne]

theorem claim_set_frame_witness :
    (((FixedDepthTreeMap.empty 2).set [JSVal.num 1, JSVal.num 2] (JSVal.str "a")).wf
        = true
      ∧ normKey 2 [JSVal.num 1, JSVal.num 2] ≠ normKey 2 [JSVal.num 1, JSVal.num 3])
    ∧ ((((FixedDepthTreeMap.empty 2).set [JSVal.num 1, JSVal.num 2]
          (JSVal.str "a")).set [JSVal.num 1, JSVal.num 3] (JSVal.str "b")).get
            [JSVal.num 1, JSVal.num 2]
        = ((FixedDepthTreeMap.empty 2).set [JSVal.num 1, JSVal.num 2]
            (JSVal.str "a")).get [JSVal.num 1, JSVal.num 2]
      ∧ (((FixedDepthTreeMap.empty 2).set [JSVal.num 1, JSVal.num 2]
            (JSVal.str "a")).set [JSVal.num 1, JSVal.num 3] (JSVal.str "b")).has
              [JSVal.num 1, JSVal.num 2]
          = ((FixedDepthTreeMap.empty 2).set [JSVal.num 1, JSVal.num 2]
              (JSVal.str "a")).has [JSVal.num 1, JSVal.num 2]
      ∧ (((FixedDepthTreeMap.empty 2).set [JSVal.num 1, JSVal.num 2]
            (JSVal.str "a")).set [JSVal.num 1, JSVal.num 3] (JSVal.str "b")).size
          = ((FixedDepthTreeMap.empty 2).set [JSVal.num 1, JSVal.num 2]
              (JSVal.str "a")).size
            + (if ((FixedDepthTreeMap.empty 2).set [JSVal.num 1, JSVal.num 2]
                (JSVal.str "a")).has [JSVal.num 1, JSVal.num 3] then 0 else 1)) :=
  ⟨⟨by decide, by decide⟩,
    claim_set_frame
      ((FixedDepthTreeMap.empty 2).set [JSVal.num 1, JSVal.num 2] (JSVal.str "a"))
      [JSVal.num 1, JSVal.num 2] [JSVal.num 1, JSVal.num 3] (JSVal.str "b")
      (by decide) (by decide)⟩

/-- C10: when `has(key)` is false, `get(key)` returns the absent sentinel
`undefined`; and after `set(key, undefined)`, `has(key)` is true while
`get(key)` still returns `undefined` — `get` alone cannot distinguish a
stored `undefined` from absence, and `has` makes that distinction. -/
theorem claim_stored_undefined (m : FixedDepthTreeMap) (key : List JSVal) :
    (m.has key = false → m.get key = .undefined)
    ∧ (m.wf = true →
        (m.set key .undefined).has key = true
          ∧ (m.set key .undefined).get key = .undefined) := by
  constructor
  · intro h
    rw [FixedDepthTreeMap.has] at h
    rw [FixedDepthTreeMap.get]
    cases hb : getBranchLoop m.root key 0 (m.keyLength - 1) with
    | none => rfl
    | some b =>
      rw [hb] at h
      dsimp only at h ⊢
      have hnone : mapGet b (keyAt key (m.keyLength - 1)) = none := by
        rw [mapHas_eq_isSome_mapGet] at h
        cases hg : mapGet b (keyAt key (m.keyLength - 1)) with
        | none => rfl
        | some e =>
          rw [hg] at h
          simp at h
      rw [hnone]
  · intro hwf
    constructor
    · rw [FixedDepthTreeMap.has_set m key key .undefined hwf, if_pos rfl]
    · rw [FixedDepthTreeMap.get_set m key key .undefined hwf, if_pos rfl]

theorem claim_stored_undefined_witness :
    ((FixedDepthTreeMap.empty 1).has [JSVal.num 4] = false
      ∧ (FixedDepthTreeMap.empty 1).wf = true)
    ∧ ((FixedDepthTreeMap.empty 1).get [JSVal.num 4] = .undefined
      ∧ ((FixedDepthTreeMap.empty 1).set [JSVal.num 4] .undefined).has [JSVal.num 4]
          = true
      ∧ ((FixedDepthTreeMap.empty 1).set [JSVal.num 4] .undefined).get [JSVal.num 4]
          = .undefined) :=
  ⟨⟨by decide, by decide⟩,
    ⟨(claim_stored_undefined (FixedDepthTreeMap.empty 1) [JSVal.num 4]).1
        (by decide),
      ((claim_stored_undefined (FixedDepthTreeMap.empty 1) [JSVal.num 4]).2
          (by decide)).1,
      ((claim_stored_undefined (FixedDepthTreeMap.empty 1) [JSVal.num 4]).2
          (by decide)).2⟩⟩

/-- C2: under well-formedness, `entries()` yields exactly the set of
currently-stored pairs — membership of `(k, leaf v)` is equivalent to `k`
having exactly `depth` components with `has k` true and `get k = v` — one
pair per stored leaf (the yielded key paths are pairwise distinct), every
yielded key has exactly `depth` components and every yielded value is a
stored leaf; overwriting a present key rewrites its pair's value in place,
leaving the sequence (hence the depth-first, insertion-following order) and
the pair's position otherwise unchanged; and `entries()` is the
deterministic value `.ok entriesList` of the pure state, so iterating twice
without intervening mutation yields identical sequences. -/
theorem claim_iteration_order (m : FixedDepthTreeMap) (hwf : m.wf = true) :
    (∀ p ∈ m.entriesList, p.1.length = m.keyLength ∧ ∃ v, p.2 = Entry.leaf v)
    ∧ (∀ (k : List JSVal) (v : JSVal),
        (k, Entry.leaf v) ∈ m.entriesList ↔
          k.length = m.keyLength ∧ m.has k = true ∧ m.get k = v)
    ∧ (m.entriesList.map Prod.fst).Nodup
    ∧ (∀ (key : List JSVal) (v : JSVal), m.has key = true →
        (m.set key v).entriesList
          = m.entriesList.map (fun p =>
              if p.1 = normKey m.keyLength key then (p.1, Entry.leaf v) else p))
    ∧ m.entriesE = .ok m.entriesList :=
  ⟨fun p hp => FixedDepthTreeMap.entriesList_shape m hwf p hp,
   fun k v => FixedDepthTreeMap.entriesList_mem_leaf_iff m hwf k v,
   FixedDepthTreeMap.entriesList_nodup m hwf,
   fun key v hhas => FixedDepthTreeMap.entriesList_set_replace m key v hwf hhas,
   FixedDepthTreeMap.entriesE_eq_ok m (m.wf_keyLength hwf)⟩

theorem claim_iteration_order_witness :
    (((FixedDepthTreeMap.empty 2).set [JSVal.num 1, JSVal.num 2]
        (JSVal.str "a")).set [JSVal.num 1, JSVal.num 3] (JSVal.str "b")).wf = true
    ∧ ((∀ p ∈ (((FixedDepthTreeMap.empty 2).set [JSVal.num 1, JSVal.num 2]
          (JSVal.str "a")).set [JSVal.num 1, JSVal.num 3]
            (JSVal.str "b")).entriesList,
        p.1.length = (((FixedDepthTreeMap.empty 2).set [JSVal.num 1, JSVal.num 2]
          (JSVal.str "a")).set [JSVal.num 1, JSVal.num 3]
            (JSVal.str "b")).keyLength ∧ ∃ v, p.2 = Entry.leaf v)
      ∧ (∀ (k : List JSVal) (v : JSVal),
          (k, Entry.leaf v) ∈ (((FixedDepthTreeMap.empty 2).set
              [JSVal.num 1, JSVal.num 2] (JSVal.str "a")).set
              [JSVal.num 1, JSVal.num 3] (JSVal.str "b")).entriesList ↔
            k.length = 2
              ∧ (((FixedDepthTreeMap.empty 2).set [JSVal.num 1, JSVal.num 2]
                  (JSVal.str "a")).set [JSVal.num 1, JSVal.num 3]
                    (JSVal.str "b")).has k = true
              ∧ (((FixedDepthTreeMap.empty 2).set [JSVal.num 1, JSVal.num 2]
                  (JSVal.str "a")).set [JSVal.num 1, JSVal.num 3]
                    (JSVal.str "b")).get k = v)
      ∧ ((((FixedDepthTreeMap.empty 2).set [JSVal.num 1, JSVal.num 2]
          (JSVal.str "a")).set [JSVal.num 1, JSVal.num 3]
            (JSVal.str "b")).entriesList.map Prod.fst).Nodup
      ∧ (∀ (key : List JSVal) (v : JSVal),
          (((FixedDepthTreeMap.empty 2).set [JSVal.num 1, JSVal.num 2]
              (JSVal.str "a")).set [JSVal.num 1, JSVal.num 3]
                (JSVal.str "b")).has key = true →
          ((((FixedDepthTreeMap.empty 2).set [JSVal.num 1, JSVal.num 2]
              (JSVal.str "a")).set [JSVal.num 1, JSVal.num 3]
                (JSVal.str "b")).set key v).entriesList
            = (((FixedDepthTreeMap.empty 2).set [JSVal.num 1, JSVal.num 2]
                (JSVal.str "a")).set [JSVal.num 1, JSVal.num 3]
                  (JSVal.str "b")).entriesList.map (fun p =>
                if p.1 = normKey 2 key then (p.1, Entry.leaf v) else p))
      ∧ (((FixedDepthTreeMap.empty 2).set [JSVal.num 1, JSVal.num 2]
          (JSVal.str "a")).set [JSVal.num 1, JSVal.num 3]
            (JSVal.str "b")).entriesE
          = .ok (((FixedDepthTreeMap.empty 2).set [JSVal.num 1, JSVal.num 2]
              (JSVal.str "a")).set [JSVal.num 1, JSVal.num 3]
                (JSVal.str "b")).entriesList) :=
  ⟨by decide,
    claim_iteration_order
      (((FixedDepthTreeMap.empty 2).set [JSVal.num 1, JSVal.num 2]
        (JSVal.str "a")).set [JSVal.num 1, JSVal.num 3] (JSVal.str "b"))
      (by decide)⟩

/-- C3: starting from the empty map of positive depth, a sequence of `set`
calls with keys pairwise distinct under componentwise value-equality (on
the consulted components) produces `size = N`; a repeated `set` on a
present key leaves `size` unchanged; `delete` on a present key returns
`true` and decreases `size` by exactly 1; `delete` on a missing key returns
`false` and leaves the whole state (hence `size`) unchanged. -/
theorem claim_size_correctness (d : Nat) (pairs : List (List JSVal × JSVal))
    (hd : 1 ≤ d) (hdist : (pairs.map fun p => normKey d p.1).Nodup) :
    (pairs.foldl (fun m p => m.set p.1 p.2) (FixedDepthTreeMap.empty d)).size
      = pairs.length
    ∧ (∀ (m : FixedDepthTreeMap) (key : List JSVal) (v : JSVal),
        m.wf = true → m.has key = true → (m.set key v).size = m.size)
    ∧ (∀ (m : FixedDepthTreeMap) (key : List JSVal),
        m.wf = true → m.has key = true →
        (m.delete key).2 = true ∧ (m.delete key).1.size + 1 = m.size)
    ∧ (∀ (m : FixedDepthTreeMap) (key : List JSVal),
        1 ≤ m.keyLength → m.has key = false → m.delete key = (m, false)) := by
  refine ⟨?_, ?_, ?_, ?_⟩
  · have hfold := foldl_set_size d pairs (FixedDepthTreeMap.empty d) rfl
      (FixedDepthTreeMap.wf_empty d hd) hdist
      (fun p _ => FixedDepthTreeMap.has_empty d p.1 hd)
    rw [hfold, FixedDepthTreeMap.size_empty]
    simp
  · intro m key v hwf hhas
    rw [FixedDepthTreeMap.size_set m key v hwf, hhas]
    simp
  · intro m key hwf hhas
    refine ⟨?_, ?_⟩
    · rw [FixedDepthTreeMap.delete_snd m key hwf, hhas]
    · have hsz := FixedDepthTreeMap.size_delete m key hwf
      rw [hhas] at hsz
      simpa using hsz
  · intro m key hd2 hhas
    exact FixedDepthTreeMap.delete_not_found m key hd2 hhas

theorem claim_size_correctness_witness :
    (1 ≤ 2
      ∧ (([([JSVal.num 1, JSVal.num 2], JSVal.str "a"),
           ([JSVal.num 1, JSVal.num 3], JSVal.str "b")] :
          List (List JSVal × JSVal)).map fun p => normKey 2 p.1).Nodup)
    ∧ (([([JSVal.num 1, JSVal.num 2], JSVal.str "a"),
         ([JSVal.num 1, JSVal.num 3], JSVal.str "b")] :
        List (List JSVal × JSVal)).foldl (fun m p => m.set p.1 p.2)
          (FixedDepthTreeMap.empty 2)).size = 2 :=
  ⟨⟨by decide, by decide⟩,
    (claim_size_correctness 2
      [([JSVal.num 1, JSVal.num 2], JSVal.str "a"),
       ([JSVal.num 1, JSVal.num 3], JSVal.str "b")]
      (by decide) (by decide)).1⟩

/-- C4: for a map of depth 1, `size` is the root map's own entry count (the
code's special case returns it without invoking the traversal); for depth
≥ 2, `size` is the total number of leaf entries summed over the branch
maps reachable from the root (`leafCount`, the recursive sum over branch
nodes of their leaf-entry counts, which counts no branch or intermediate
node itself). -/
theorem claim_size_algorithm (m : FixedDepthTreeMap) :
    (m.keyLength = 1 → m.sizeE = .ok m.root.length)
    ∧ (2 ≤ m.keyLength → m.sizeE = .ok (leafCount m.keyLength m.root)) := by
  constructor
  · intro h1
    simp [FixedDepthTreeMap.sizeE, h1]
  · intro h2
    rw [FixedDepthTreeMap.sizeE_eq_ok m (by omega),
      FixedDepthTreeMap.size_eq_leafCount m (by omega)]

theorem claim_size_algorithm_witness :
    (((FixedDepthTreeMap.empty 1).set [JSVal.num 5] (JSVal.str "x")).keyLength = 1
      ∧ 2 ≤ ((FixedDepthTreeMap.empty 2).set [JSVal.num 1, JSVal.num 2]
          (JSVal.str "y")).keyLength)
    ∧ (((FixedDepthTreeMap.empty 1).set [JSVal.num 5] (JSVal.str "x")).sizeE
        = .ok ((FixedDepthTreeMap.empty 1).set [JSVal.num 5]
            (JSVal.str "x")).root.length
      ∧ ((FixedDepthTreeMap.empty 2).set [JSVal.num 1, JSVal.num 2]
          (JSVal.str "y")).sizeE
        = .ok (leafCount
            ((FixedDepthTreeMap.empty 2).set [JSVal.num 1, JSVal.num 2]
              (JSVal.str "y")).keyLength
            ((FixedDepthTreeMap.empty 2).set [JSVal.num 1, JSVal.num 2]
              (JSVal.str "y")).root)) :=
  ⟨⟨rfl, by decide⟩,
    ⟨(claim_size_algorithm
        ((FixedDepthTreeMap.empty 1).set [JSVal.num 5] (JSVal.str "x"))).1 rfl,
      (claim_size_algorithm
        ((FixedDepthTreeMap.empty 2).set [JSVal.num 1, JSVal.num 2]
          (JSVal.str "y"))).2 (by decide)⟩⟩

/-- C7: deleting the only leaf stored below a previously-absent branch
chain removes just that leaf: the delete reports `true`, the key is gone,
yet the branch chain persists in the tree (the branch still resolves —
nothing is pruned), while the now-empty branch contributes no pairs to
`entries()` and nothing to `size` (both return to their values before the
`set`). -/
theorem claim_empty_branch_persists (m : FixedDepthTreeMap) (key : List JSVal)
    (v : JSVal) (hwf : m.wf = true)
    (hb : getBranchLoop m.root key 0 (m.keyLength - 1) = none) :
    ((m.set key v).delete key).2 = true
    ∧ ((m.set key v).delete key).1.has key = false
    ∧ (getBranchLoop ((m.set key v).delete key).1.root key 0
        (m.keyLength - 1)).isSome = true
    ∧ ((m.set key v).delete key).1.size = m.size
    ∧ ((m.set key v).delete key).1.entriesList = m.entriesList := by
  have hd := m.wf_keyLength hwf
  have hwf1 : (m.set key v).wf = true := FixedDepthTreeMap.wf_set m key v hwf
  have hhas0 : m.has key = false := by
    simp [FixedDepthTreeMap.has, hb]
  have hhas1 : (m.set key v).has key = true := by
    rw [FixedDepthTreeMap.has_set m key key v hwf, if_pos rfl]
  refine ⟨?_, ?_, ?_, ?_, ?_⟩
  · rw [FixedDepthTreeMap.delete_snd (m.set key v) key hwf1, hhas1]
  · exact FixedDepthTreeMap.has_delete_self (m.set key v) key hwf1
  · have hr := m.wf_root hwf
    obtain ⟨d, hd1⟩ : ∃ d, m.keyLength = d + 1 := ⟨m.keyLength - 1, by omega⟩
    have hset : (getBranchLoop (m.set key v).root key 0
        (m.keyLength - 1)).isSome = true := by
      show (getBranchLoop (setLoop m.root key 0 (m.keyLength - 1) v) key 0
        (m.keyLength - 1)).isSome = true
      rw [hd1] at hr ⊢
      simp only [Nat.add_sub_cancel]
      exact getBranchLoop_setLoop_isSome d key v 0 m.root hr
    obtain ⟨b, hbs⟩ : ∃ b, getBranchLoop (m.set key v).root key 0
        (m.keyLength - 1) = some b := by
      cases hg : getBranchLoop (m.set key v).root key 0 (m.keyLength - 1) with
      | none =>
        rw [hg] at hset
        simp at hset
      | some b => exact ⟨b, rfl⟩
    have hafter := getBranchLoop_deleteLoop (m.keyLength - 1) key 0
      (m.set key v).root b hbs
    show (getBranchLoop ((deleteLoop (m.set key v).root key 0
      (m.keyLength - 1)).1) key 0 (m.keyLength - 1)).isSome = true
    rw [hafter]
    rfl
  · have hs1 := FixedDepthTreeMap.size_delete (m.set key v) key hwf1
    rw [hhas1] at hs1
    have hs2 := FixedDepthTreeMap.size_set m key v hwf
    rw [hhas0] at hs2
    simp at hs1 hs2
    omega
  · exact FixedDepthTreeMap.entriesList_set_delete_absent m key v hwf hb

theorem claim_empty_branch_persists_witness :
    (((FixedDepthTreeMap.empty 2).set [JSVal.num 1, JSVal.num 2]
        (JSVal.str "a")).wf = true
      ∧ getBranchLoop ((FixedDepthTreeMap.empty 2).set [JSVal.num 1, JSVal.num 2]
          (JSVal.str "a")).root [JSVal.num 3, JSVal.num 4] 0
          (((FixedDepthTreeMap.empty 2).set [JSVal.num 1, JSVal.num 2]
            (JSVal.str "a")).keyLength - 1) = none)
    ∧ (((((FixedDepthTreeMap.empty 2).set [JSVal.num 1, JSVal.num 2]
          (JSVal.str "a")).set [JSVal.num 3, JSVal.num 4]
            (JSVal.str "b")).delete [JSVal.num 3, JSVal.num 4]).2 = true
      ∧ ((((FixedDepthTreeMap.empty 2).set [JSVal.num 1, JSVal.num 2]
          (JSVal.str "a")).set [JSVal.num 3, JSVal.num 4]
            (JSVal.str "b")).delete [JSVal.num 3, JSVal.num 4]).1.has
              [JSVal.num 3, JSVal.num 4] = false
      ∧ (getBranchLoop ((((FixedDepthTreeMap.empty 2).set
            [JSVal.num 1, JSVal.num 2] (JSVal.str "a")).set
            [JSVal.num 3, JSVal.num 4] (JSVal.str "b")).delete
            [JSVal.num 3, JSVal.num 4]).1.root [JSVal.num 3, JSVal.num 4] 0
          (((FixedDepthTreeMap.empty 2).set [JSVal.num 1, JSVal.num 2]
            (JSVal.str "a")).keyLength - 1)).isSome = true
      ∧ ((((FixedDepthTreeMap.empty 2).set [JSVal.num 1, JSVal.num 2]
          (JSVal.str "a")).set [JSVal.num 3, JSVal.num 4]
            (JSVal.str "b")).delete [JSVal.num 3, JSVal.num 4]).1.size
          = ((FixedDepthTreeMap.empty 2).set [JSVal.num 1, JSVal.num 2]
              (JSVal.str "a")).size
      ∧ ((((FixedDepthTreeMap.empty 2).set [JSVal.num 1, JSVal.num 2]
          (JSVal.str "a")).set [JSVal.num 3, JSVal.num 4]
            (JSVal.str "b")).delete [JSVal.num 3, JSVal.num 4]).1.entriesList
          = ((FixedDepthTreeMap.empty 2).set [JSVal.num 1, JSVal.num 2]
              (JSVal.str "a")).entriesList) :=
  ⟨⟨by decide, rfl⟩,
    claim_empty_branch_persists
      ((FixedDepthTreeMap.empty 2).set [JSVal.num 1, JSVal.num 2] (JSVal.str "a"))
      [JSVal.num 3, JSVal.num 4] (JSVal.str "b") (by decide) rfl⟩

/-- C8: the `InvalidArgument`-style error is raised synchronously exactly
for (a) constructing the map with depth < 1 and (b) invoking the internal
depth-first traversal with target depth 0, and nowhere else: whenever the
construction-time bound `1 ≤ keyLength` holds, the public `entries` and
`size` never hit case (b) and return `.ok`; the remaining public
operations (`get`, `has`, `set`, `delete`, `clear`) are modelled as total
functions returning normal values — absence is the ordinary not-found
result, never an error. -/
theorem claim_error_taxonomy :
    (∀ kl : Int, (∃ e, FixedDepthTreeMap.create kl = .error e) ↔ kl < 1)
    ∧ (∀ (path : List JSVal) (ml : Nat) (parent : NodeMap),
        (∃ e, depthFirstIterate path ml parent = .error e) ↔ ml = 0)
    ∧ (∀ m : FixedDepthTreeMap, 1 ≤ m.keyLength →
        m.entriesE = .ok m.entriesList ∧ m.sizeE = .ok m.size) :=
  ⟨FixedDepthTreeMap.create_error_iff,
   depthFirstIterate_error_iff,
   fun m hd => ⟨FixedDepthTreeMap.entriesE_eq_ok m hd,
     FixedDepthTreeMap.sizeE_eq_ok m hd⟩⟩

theorem claim_error_taxonomy_witness :
    (∃ e, FixedDepthTreeMap.create 0 = .error e)
    ∧ (∃ e, depthFirstIterate [] 0 [] = .error e)
    ∧ (1 ≤ (FixedDepthTreeMap.empty 1).keyLength
      ∧ (FixedDepthTreeMap.empty 1).entriesE
          = .ok (FixedDepthTreeMap.empty 1).entriesList
      ∧ (FixedDepthTreeMap.empty 1).sizeE = .ok (FixedDepthTreeMap.empty 1).size) :=
  ⟨(claim_error_taxonomy.1 0).mpr (by decide),
    (claim_error_taxonomy.2.1 [] 0 []).mpr rfl,
    ⟨by decide,
      (claim_error_taxonomy.2.2 (FixedDepthTreeMap.empty 1) (by decide)).1,
      (claim_error_taxonomy.2.2 (FixedDepthTreeMap.empty 1) (by decide)).2⟩⟩
